import Mathlib

/-!
# 2-opt random-restart hill climbing (`src/tsp-omp/main.cpp`)

A shallow embedding of `LCG_random`, of `best_thread_count` and of the device region of
`main`: the load and the serial permutation of a restart, one pass of the local search (gain
table, strided tiled scan, min tree reduction, winner publication, cooperative reversal),
the sum tree reduction of the converged tour and the merge of the converged lengths into
`best[0]`.

Modelling conventions.

* Arrays (`px`/`py`, `buf`, the tiles `px_s`/`py_s`/`bf_s`, the reduction buffer `buf_s`)
  are maps from an index to a value.  The two coordinate arrays `px`, `py` are always
  read and swapped together, so a tour is one map `Nat → α` from a position to a
  coordinate pair; position `cities` is the wrap sentinel.
* The macro `dist` and the two inlined `int(sqrtf(...))` expressions of the scan are the
  same function of two coordinate pairs; it is the parameter `d : α → α → Int`.  The
  parameter `ts` is the macro `tilesize`.
* A value of type `int` is an integer.  The buffers `bf_s` and `buf_s` are `float` arrays:
  every store of an `int` into them, and every `int` operand of a float addition or
  comparison, is converted by `toFloat`, which rounds to binary32 (24 significant bits, to
  nearest, ties to even; exact up to `2 ^ 24` in magnitude).  Such a float holds an
  integer, and reading it into an `int` gives that integer.  The float additions
  `bf_s[jm] + int(..) + int(..)` of the scan, `buf_s[3] + mini` of the move application and
  `term += buf_s[..]` of the length sum add integer-valued floats, so their result is
  `toFloat` of the exact sum.
* The `int` registers of the scan and of the min reduction are not bounded (they stay in
  the range of `int` while the distances are below `2 ^ 29`).  The register `term` of the
  length sum wraps at 32 bits, `wrapInt`; a float sum beyond the range of `int`, whose
  conversion the language leaves open, is wrapped as well.  The `unsigned int` arithmetic
  and the float conversions of `LCG_random` and of the shuffle index are modelled
  bit-exactly.
* A team of `dim` workers runs in lockstep between barriers.  Every phase between two
  barriers is data-race free (the workers write disjoint locations and read nothing that
  is written in the same phase), so a phase is the sequential composition of the parts of
  the workers `lid = 0, 1, ..., dim - 1`; registers private to a worker are a map from
  `lid` to their value.  The only racy write, `buf_s[1] = lid` of the winner selection, is
  resolved by an oracle `w`, the worker whose write lands last; `Winner` says which
  workers take part in that race.
* Loops carry a fuel argument that bounds the number of iterations from above; the
  lemmas `strideLoop_fuel`, `tileLoop_fuel`, `scanJ_fuel`, `reduceLoop_fuel`,
  `shuffleLoop_fuel`, `sumLoop_fuel` and `blocksLoop_fuel` show that more fuel never changes
  a result.
* The atomic counter `climbs[0]` takes no part in the properties below and is left out.
-/

namespace TSP

/-! ## The pseudo-random generator -/

/-- Number of binary digits of `n` (for `n < 2 ^ fuel`). -/
def bitLen : Nat → Nat → Nat
  | 0, _ => 0
  | fuel + 1, n => if n = 0 then 0 else bitLen fuel (n / 2) + 1

/-- Conversion of a non-negative integer to binary32 (`(float) n`): the integer is rounded
to 24 significant bits, to nearest, ties to even.  The result is the value of the float,
which is again an integer. -/
def toF32 (n : Nat) : Nat :=
  let e := bitLen 64 n - 24
  let q := n / 2 ^ e
  let r := n % 2 ^ e
  if 2 * r < 2 ^ e then q * 2 ^ e
  else if 2 ^ e < 2 * r then (q + 1) * 2 ^ e
  else if q % 2 = 0 then q * 2 ^ e else (q + 1) * 2 ^ e

/-- Conversion of an `int` to binary32 (`(float) x`, and every store of an `int` into a
`float` array): `toF32` on the magnitude, the sign kept.  The float holds an integer, and
that integer is also what reading it back into an `int` gives.  The same function rounds
the exact sum of two integer-valued floats to their float sum. -/
def toFloat (x : Int) : Int :=
  if 0 ≤ x then (toF32 x.toNat : Int) else -(toF32 (-x).toNat : Int)

/-- A value assigned to the 32-bit `int term`, wrapped modulo `2 ^ 32` into the range of
`int`. -/
def wrapInt (x : Int) : Int := (x + 2147483648) % 4294967296 - 2147483648

/-- Modulus `m` of `LCG_random`. -/
def LCG_m : Nat := 2147483648

/-- Multiplier `a` of `LCG_random`. -/
def LCG_a : Nat := 26757677

/-- Increment `c` of `LCG_random`. -/
def LCG_c : Nat := 1

/-- The procedure `LCG_random`.  `*seed = (a * (*seed) + c) % m` is evaluated in `unsigned int`,
so the product and the sum wrap modulo `2 ^ 32`.  The returned float is
`(float)(*seed) / (float) m`; `m` is a power of two, so the division is exact, and the float
`v` is represented by the integer `v * 2 ^ 31`.  The result is `(v * 2 ^ 31, new seed)`. -/
def LCG_random (seed : Nat) : Nat × Nat :=
  let seed1 := (((LCG_a * seed) % 2 ^ 32 + LCG_c) % 2 ^ 32) % LCG_m
  (toF32 seed1, seed1)

/-- The shuffle index `(int)(LCG_random(&seed) * (cities - 1)) + 1` for the float
`v = vnum / 2 ^ 31`: `cities - 1` is converted to float, the product is rounded to float
(rounding commutes with the scaling by `2 ^ 31`), and the cast truncates. -/
def shuffleIndex (cities vnum : Nat) : Nat :=
  toF32 (vnum * toF32 (cities - 1)) / 2 ^ 31 + 1

/-- The macro `swap(a, b)` on two slots of one array: `tmp = a; a = b; b = tmp`. -/
def swap {α : Type} (p : Nat → α) (i j : Nat) : Nat → α :=
  Function.update (Function.update p i (p j)) j (p i)

/-- The serial permutation loop `for (i = 1; i < cities; i++)` of worker 0, from the
position `i` and the seed `seed` on. -/
def shuffleLoop {α : Type} (cities : Nat) : Nat → Nat → Nat → (Nat → α) → (Nat → α)
  | 0, _, _, p => p
  | fuel + 1, i, seed, p =>
    if i < cities then
      let r := LCG_random seed
      shuffleLoop cities fuel (i + 1) r.2 (swap p i (shuffleIndex cities r.1))
    else p

/-- The serial permutation of restart `bid`: the shuffle seeded with the restart id, then
`px[cities] = px[0]`. -/
def shuffle {α : Type} (cities bid : Nat) (p : Nat → α) : Nat → α :=
  let q := shuffleLoop cities cities 1 bid p
  Function.update q cities (q 0)

/-! ## Team loops -/

/-- The strided loop of one worker, `for (i = start; cond i; i += dim) body i`. -/
def strideLoop {σ : Type} (cond : Nat → Bool) (dim : Nat) (body : Nat → σ → σ) :
    Nat → Nat → σ → σ
  | 0, _, s => s
  | fuel + 1, i, s =>
    if cond i then strideLoop cond dim body fuel (i + dim) (body i s) else s

/-- A phase in which every worker `lid < dim` runs `f lid` on the shared state. -/
def forWorkers {σ : Type} (dim : Nat) (f : Nat → σ → σ) (s : σ) : σ :=
  (List.range dim).foldl (fun s lid => f lid s) s

/-- The cooperative loop `for (i = lid; cond i; i += dim) body i` run by the whole team. -/
def teamLoop {σ : Type} (cond : Nat → Bool) (fuel dim : Nat) (body : Nat → σ → σ) (s : σ) : σ :=
  forWorkers dim (fun lid s => strideLoop cond dim body fuel lid s) s

/-- The load of the shared coordinates into the private tour,
`for (i = lid; i < cities; i += dim) px[i] = posx[i]` (and the same for `py`), on the memory
`mem` of the team; position `cities` keeps what the memory held. -/
def loadTour {α : Type} (cities dim : Nat) (pos mem : Nat → α) : Nat → α :=
  teamLoop (fun i => decide (i < cities)) cities dim (fun i p => Function.update p i (pos i)) mem

/-- The start of restart `bid`: the load, then the serial permutation of worker 0. -/
def initTour {α : Type} (cities dim bid : Nat) (pos mem : Nat → α) : Nat → α :=
  shuffle cities bid (loadTour cities dim pos mem)

/-! ## One pass of the move selector -/

/-- The registers of one worker during the scan: `minchange`, `mini`, `minj` and the
coordinates `(pxi0, pyi0)`, `(pxi1, pyi1)`, `(pxj1, pyj1)`. -/
structure Worker (α : Type) where
  minchange : Int
  mini : Int
  minj : Int
  pi0 : α
  pi1 : α
  pj1 : α

/-- The staged tile: `(px_s, py_s)` and `bf_s`. -/
structure Tile (α : Type) where
  pS : Nat → α
  bfS : Nat → Int

/-- The memory of one team: the tour `(px, py)`, the gain table `buf`, the tile and the
reduction buffer `buf_s`. -/
structure Team (α : Type) where
  p : Nat → α
  buf : Nat → Int
  tile : Tile α
  bufS : Nat → Int

/-- The gain table `for (i = lid; i < cities; i += dim) buf[i] = -dist(i, i + 1)`. -/
def gainTable {α : Type} (d : α → α → Int) (cities dim : Nat) (p : Nat → α)
    (buf : Nat → Int) : Nat → Int :=
  teamLoop (fun i => decide (i < cities)) cities dim
    (fun i b => Function.update b i (-(d (p i) (p (i + 1))))) buf

/-- The tile load `for (k = lid; k < tilesize; k += dim) if (k + bound >= ii + 2) ...`; the
store `bf_s[k] = buf[k + bound]` converts the `int` to float. -/
def loadTile {α : Type} (ts dim : Nat) (p : Nat → α) (buf : Nat → Int) (ii : Nat)
    (bound : Int) (t : Tile α) : Tile α :=
  teamLoop (fun k => decide (k < ts)) ts dim
    (fun k t =>
      if (ii : Int) + 2 ≤ (k : Int) + bound then
        { pS := Function.update t.pS k (p ((k : Int) + bound).toNat),
          bfS := Function.update t.bfS k (toFloat (buf ((k : Int) + bound).toNat)) }
      else t) t

/-- The loop `for (j = jj; j >= lower; j--)` of the worker scanning position `i`.  The
expression `bf_s[jm] + int(...) + int(...)` is evaluated in float: each `int` is converted,
each of the two additions rounds, and the result is converted to the `int change`. -/
def scanJ {α : Type} (d : α → α → Int) (t : Tile α) (bound lower : Int) (i : Nat) :
    Nat → Int → Worker α → Worker α
  | 0, _, w => w
  | fuel + 1, j, w =>
    if lower ≤ j then
      let jm := (j - bound).toNat
      let pj0 := t.pS jm
      let change := toFloat (toFloat (t.bfS jm + toFloat (d w.pi0 pj0)) + toFloat (d w.pi1 w.pj1))
      scanJ d t bound lower i fuel (j - 1)
        (if w.minchange > change then
          { w with pj1 := pj0, minchange := change, mini := i, minj := j }
        else { w with pj1 := pj0 })
    else w

/-- The body of the tile loop: the team stages the tile ending at `jj`, then every worker
scans it from `jj` down to `lower = max bound (i + 2)`, where `i = ii + lid`. -/
def tileStep {α : Type} (d : α → α → Int) (ts dim : Nat) (p : Nat → α) (buf : Nat → Int)
    (ii : Nat) (jj : Int) (s : Tile α × (Nat → Worker α)) : Tile α × (Nat → Worker α) :=
  let bound := jj - ts + 1
  let t := loadTile ts dim p buf ii bound s.1
  (t, fun lid =>
    let i := ii + lid
    let lower := if bound < (i : Int) + 2 then (i : Int) + 2 else bound
    scanJ d t bound lower i ts jj (s.2 lid))

/-- The tile loop `for (jj = cities - 1; jj >= ii + 2; jj -= tilesize)`. -/
def tileLoop {α : Type} (d : α → α → Int) (ts dim : Nat) (p : Nat → α) (buf : Nat → Int)
    (ii : Nat) : Nat → Int → Tile α × (Nat → Worker α) → Tile α × (Nat → Worker α)
  | 0, _, s => s
  | fuel + 1, jj, s =>
    if (ii : Int) + 2 ≤ jj then
      tileLoop d ts dim p buf ii fuel (jj - ts) (tileStep d ts dim p buf ii jj s)
    else s

/-- The first guarded block of a round, `if (i < cities - 2)`: the edge `(i, i + 1)` is
taken out of `minchange` and the registers are loaded. -/
def roundPre {α : Type} (cities : Nat) (p : Nat → α) (buf : Nat → Int) (i : Nat)
    (w : Worker α) : Worker α :=
  if i < cities - 2 then
    { w with minchange := w.minchange - buf i, pi0 := p i, pi1 := p (i + 1), pj1 := p cities }
  else w

/-- The last guarded block of a round, `if (i < cities - 2) minchange += buf[i]`. -/
def roundPost {α : Type} (cities : Nat) (buf : Nat → Int) (i : Nat) (w : Worker α) : Worker α :=
  if i < cities - 2 then { w with minchange := w.minchange + buf i } else w

/-- The body of the loop over `ii`: worker `lid` handles position `i = ii + lid`.  The
coordinate registers are declared in this body; a worker with `i >= cities - 2` leaves
them indeterminate and never reads them (the model keeps their previous contents). -/
def scanRound {α : Type} (d : α → α → Int) (cities ts dim : Nat) (p : Nat → α)
    (buf : Nat → Int) (ii : Nat) (s : Tile α × (Nat → Worker α)) :
    Tile α × (Nat → Worker α) :=
  let s1 := tileLoop d ts dim p buf ii cities ((cities : Int) - 1)
    (s.1, fun lid => roundPre cities p buf (ii + lid) (s.2 lid))
  (s1.1, fun lid => roundPost cities buf (ii + lid) (s1.2 lid))

/-- The scan `for (ii = 0; ii < cities - 2; ii += dim)`, started with `minchange = 0`,
`mini = 1`, `minj = 0` in every worker; `u` is the indeterminate initial content of the
coordinate registers. -/
def scan {α : Type} (d : α → α → Int) (cities ts dim : Nat) (u : α) (p : Nat → α)
    (buf : Nat → Int) (t : Tile α) : Tile α × (Nat → Worker α) :=
  strideLoop (fun ii => decide (ii < cities - 2)) dim (scanRound d cities ts dim p buf)
    cities 0 (t, fun _ => { minchange := 0, mini := 1, minj := 0, pi0 := u, pi1 := u, pj1 := u })

/-- The state of the min reduction: the register `change` of every worker and `buf_s`. -/
structure Red where
  change : Nat → Int
  bufS : Nat → Int

/-- One round of the tree reduction: every worker with `lid + k < j` combines slot
`lid + k` into its register `change` and stores it, converted to float, into slot `lid`. -/
def reduceRound (dim j k : Nat) (r : Red) : Red :=
  forWorkers dim (fun lid r =>
    if lid + k < j then
      let tmp := r.bufS (lid + k)
      let c := if r.change lid > tmp then tmp else r.change lid
      { change := Function.update r.change lid c,
        bufS := Function.update r.bufS lid (toFloat c) }
    else r) r

/-- The reduction loop `j = dim; do ... while (j > 1)` with `k = (j + 1) / 2`. -/
def reduceLoop (dim : Nat) : Nat → Nat → Red → Red
  | 0, _, r => r
  | fuel + 1, j, r =>
    let k := (j + 1) / 2
    let r1 := reduceRound dim j k r
    if k > 1 then reduceLoop dim fuel k r1 else r1

/-- The min tree reduction of the local values `v lid`: `int change = buf_s[lid] = minchange`
in every worker (the slot and the register both receive the value converted to float), then
the reduction loop. -/
def reduceMin (dim : Nat) (v : Nat → Int) (bufS : Nat → Int) : Red :=
  reduceLoop dim dim dim
    { change := fun lid => toFloat (v lid),
      bufS := forWorkers dim (fun lid b => Function.update b lid (toFloat (v lid))) bufS }

/-- The registers of every worker at the end of the scan of one pass over the team
memory `T`. -/
def localMin {α : Type} (d : α → α → Int) (cities ts dim : Nat) (u : α) (T : Team α) :
    Nat → Worker α :=
  (scan d cities ts dim u T.p (gainTable d cities dim T.p T.buf) T.tile).2

/-- The reduction state at the end of the min reduction of one pass. -/
def reduced {α : Type} (d : α → α → Int) (cities ts dim : Nat) (u : α) (T : Team α) : Red :=
  reduceMin dim (fun lid => (localMin d cities ts dim u T lid).minchange) T.bufS

/-- Worker `w` can be the published winner: it belongs to the team and its local
`minchange`, converted to float for the comparison, equals `buf_s[0]` after the reduction
(`if (minchange == buf_s[0]) buf_s[1] = lid`). -/
def Winner {α : Type} (d : α → α → Int) (cities ts dim : Nat) (u : α) (T : Team α)
    (w : Nat) : Prop :=
  w < dim ∧
    toFloat (localMin d cities ts dim u T w).minchange = (reduced d cities ts dim u T).bufS 0

instance {α : Type} (d : α → α → Int) (cities ts dim : Nat) (u : α) (T : Team α) (w : Nat) :
    Decidable (Winner d cities ts dim u T w) := by
  unfold Winner
  infer_instance

/-- The winner selection and publication: slot 1 receives the winner `w`, then the worker
with `lid == buf_s[1]` stores `mini + 1` and `minj` into the slots 2 and 3; the three
stores and the comparison convert the `int` to float. -/
def publish {α : Type} (dim : Nat) (ws : Nat → Worker α) (w : Nat) (bufS : Nat → Int) :
    Nat → Int :=
  forWorkers dim (fun lid b =>
    if toFloat (lid : Int) = b 1 then
      Function.update (Function.update b 2 (toFloat ((ws lid).mini + 1))) 3
        (toFloat (ws lid).minj)
    else b) (Function.update bufS 1 (toFloat (w : Int)))

/-- The cooperative application of the published move: `mini = buf_s[2]`,
`sum = buf_s[3] + mini` (a float addition, `mini` converted to float and the sum rounded),
`for (i = lid; (i + i) < sum; i += dim) if (mini <= i) swap i, sum - i`. -/
def applyMove {α : Type} (dim : Nat) (bufS : Nat → Int) (p : Nat → α) : Nat → α :=
  let mini := bufS 2
  let sum := toFloat (bufS 3 + toFloat mini)
  teamLoop (fun i => decide ((i : Int) + i < sum)) sum.toNat dim
    (fun i p => if mini ≤ (i : Int) then swap p i (sum - i).toNat else p) p

/-- One pass of the local search (the body of the outer `do ... while (minchange < 0)`),
with `w` the worker that wins the race for slot 1.  The result is the new team memory and
the reduced `minchange = buf_s[0]` that the loop condition tests. -/
def pass {α : Type} (d : α → α → Int) (cities ts dim : Nat) (u : α) (w : Nat) (T : Team α) :
    Team α × Int :=
  let buf := gainTable d cities dim T.p T.buf
  let s := scan d cities ts dim u T.p buf T.tile
  let r := reduceMin dim (fun lid => (s.2 lid).minchange) T.bufS
  let b := publish dim s.2 w r.bufS
  ({ p := applyMove dim b T.p, buf := buf, tile := s.1, bufS := b }, b 0)

/-! ## Specification-level notions -/

/-- The change in tour length of the 2-opt exchange of the edges `(i, i + 1)` and
`(j, j + 1)`: `d(i,j) + d(i+1,j+1) - d(i,i+1) - d(j,j+1)`. -/
def delta {α : Type} (d : α → α → Int) (p : Nat → α) (i j : Nat) : Int :=
  d (p i) (p j) + d (p (i + 1)) (p (j + 1)) - d (p i) (p (i + 1)) - d (p j) (p (j + 1))

/-- The naive untiled sequential double loop: starting from 0, the minimum of `delta i j`
over `0 <= i <= cities - 3` and `i + 2 <= j <= cities - 1`. -/
def naiveMinchange {α : Type} (d : α → α → Int) (cities : Nat) (p : Nat → α) : Int :=
  (List.range (cities - 2)).foldl
    (fun m i => (List.range' (i + 2) (cities - (i + 2))).foldl
      (fun m j => min m (delta d p i j)) m) 0

/-- The cyclic tour length, the sum over `0 <= i < cities` of `d(i, i + 1)`, the closing
edge going to the sentinel. -/
def tourLength {α : Type} (d : α → α → Int) (cities : Nat) (p : Nat → α) : Int :=
  ((List.range cities).map (fun i => d (p i) (p (i + 1)))).sum

/-! ## Definitions used in the statements and proofs -/

/-- The positions visited by `strideLoop`, in order. -/
def strideIdx (cond : Nat → Bool) (dim : Nat) : Nat → Nat → List Nat
  | 0, _ => []
  | fuel + 1, i => if cond i then i :: strideIdx cond dim fuel (i + dim) else []

/-- The value `M` is the minimum of the slots below `j`. -/
def IsMinOf (M : Int) (b : Nat → Int) (j : Nat) : Prop :=
  (∀ l, l < j → M ≤ b l) ∧ ∃ l, l < j ∧ b l = M

/-- The change of the exchange `(i, j)` as the scan computes it: the gain `-d(j, j+1)` read
back from the float tile `bf_s`, the two new edges added to it in float, the sum truncated
to `int`, and the gain `buf[i] = -d(i, i+1)` added in `int`. -/
def codeDelta {α : Type} (d : α → α → Int) (p : Nat → α) (i j : Nat) : Int :=
  toFloat (toFloat (toFloat (-(d (p j) (p (j + 1)))) + toFloat (d (p i) (p j)))
    + toFloat (d (p (i + 1)) (p (j + 1)))) - d (p i) (p (i + 1))

/-- The double loop of `naiveMinchange` over the changes as the scan computes them. -/
def codeMinchange {α : Type} (d : α → α → Int) (cities : Nat) (p : Nat → α) : Int :=
  (List.range (cities - 2)).foldl
    (fun m i => (List.range' (i + 2) (cities - (i + 2))).foldl
      (fun m j => min m (codeDelta d p i j)) m) 0

/-- The registers `(m, mini, minj)` are the defaults or record a legal exchange whose
computed change is `m`. -/
def Best {α : Type} (d : α → α → Int) (cities : Nat) (p : Nat → α) (m mini minj : Int) : Prop :=
  (m = 0 ∧ mini = 1 ∧ minj = 0) ∨
    (m < 0 ∧ ∃ i j : Nat, mini = (i : Int) ∧ minj = (j : Int) ∧ i + 2 ≤ j ∧ j + 1 ≤ cities ∧
      codeDelta d p i j = m)

/-- The registers are legal and `m` is a lower bound of the computed change of every
exchange in `C`. -/
def Sound {α : Type} (d : α → α → Int) (cities : Nat) (p : Nat → α) (C : Nat → Nat → Prop)
    (m mini minj : Int) : Prop :=
  Best d cities p m mini minj ∧ ∀ i j, C i j → m ≤ codeDelta d p i j

/-- The value `m` is `min(0, min over the legal exchanges (i, j) of g i j)`. -/
def IsMinchange (g : Nat → Nat → Int) (cities : Nat) (m : Int) : Prop :=
  m ≤ 0 ∧ (∀ i j, i + 2 ≤ j → j + 1 ≤ cities → m ≤ g i j) ∧
    (m = 0 ∨ ∃ i j, i + 2 ≤ j ∧ j + 1 ≤ cities ∧ g i j = m)

/-- Integer square root, by search. -/
def isqrt (n : Nat) : Nat :=
  ((List.range (n + 1)).filter (fun k => decide (k * k ≤ n))).length - 1

/-- The macro `dist` on points with small integer coordinates: there the squared distance is
computed exactly in float and `int(sqrtf(x))` is the integer square root of `x`. -/
def gridDist (a b : Int × Int) : Int :=
  (isqrt ((a.1 - b.1) * (a.1 - b.1) + (a.2 - b.2) * (a.2 - b.2)).toNat : Int)

/-- A team memory whose tour is the given list of points (sentinel included) and whose
scratch arrays are zeroed. -/
def mkTeam (l : List (Int × Int)) : Team (Int × Int) :=
  { p := fun i => l.getD i (0, 0), buf := fun _ => 0,
    tile := { pS := fun _ => (0, 0), bfS := fun _ => 0 }, bufS := fun _ => 0 }

/-- The unit square visited in the crossed order `(0,0), (1,1), (1,0), (0,1)`. -/
def crossedSquare : Team (Int × Int) := mkTeam [(0, 0), (1, 1), (1, 0), (0, 1), (0, 0)]

/-- An improving pass: `T1` is the team memory after a pass over `T` whose reduced
`minchange` is negative, for some admissible winner. -/
def Improves {α : Type} (d : α → α → Int) (cities ts dim : Nat) (u : α) (T1 T : Team α) : Prop :=
  ∃ w, Winner d cities ts dim u T w ∧ (pass d cities ts dim u w T).2 < 0 ∧
    T1 = (pass d cities ts dim u w T).1

/-- Every truncated distance between two positions of the tour is below `2 ^ 22` in
magnitude, so that every float operation of a pass is exact. -/
def SmallDist {α : Type} (d : α → α → Int) (cities : Nat) (p : Nat → α) : Prop :=
  ∀ a b, a ≤ cities → b ≤ cities → -4194304 < d (p a) (p b) ∧ d (p a) (p b) < 4194304

/-- The constant `INT_MAX`, the initial value of `best[0]`. -/
def INT_MAX : Int := 2147483647

/-- The atomic merge `best[0] = (term < best[0]) ? term : best[0]`. -/
def mergeBest (best term : Int) : Int := if term < best then term else best

/-- Every index drawn by the permutation loop from position `i` and seed `seed` on lies
below `cities`. -/
def goodDraws (cities : Nat) : Nat → Nat → Nat → Bool
  | 0, _, _ => true
  | fuel + 1, i, seed =>
    if i < cities then
      decide (shuffleIndex cities (LCG_random seed).1 < cities) &&
        goodDraws cities fuel (i + 1) (LCG_random seed).2
    else true

/-- A team in which every worker holds the move `mini = 8388608`, `minj = 8388610`. -/
def farMove : Nat → Worker Nat :=
  fun _ => { minchange := -1, mini := 8388608, minj := 8388610, pi0 := 0, pi1 := 0, pj1 := 0 }

/-- The macro `dist` on the cities of `farTour`, which lie on the two vertical lines `x = 0`
and `x = 16777218` at heights between 0 and 98.  Two cities of one line are at the
difference of their heights, which float computes exactly.  Two cities of different lines
are at `int(sqrtf(dx * dx + dy * dy)) = 16777218`: the float square of `dx = 16777218` is
`2 ^ 48 + 2 ^ 26`, it absorbs `dy * dy <= 9604`, and its float square root is
`16777218`. -/
def farDist (a b : Int × Int) : Int :=
  if a.1 = b.1 then ((a.2 - b.2).natAbs : Int) else 16777218

/-- A tour of 100 cities: `(0, 0)`, then `(16777218, 0)`, `(16777218, 2)`, `(16777218, 1)`,
then the cities `(0, 96), (0, 95), ..., (0, 1)` at the positions 4 to 99, and the sentinel
`(0, 0)`. -/
def farTour : Nat → Int × Int := fun i =>
  if i = 0 then (0, 0) else if i = 1 then (16777218, 0) else if i = 2 then (16777218, 2)
  else if i = 3 then (16777218, 1) else if i < 100 then (0, 100 - (i : Int)) else (0, 0)

/-- The tour `farTour` with the cities at the positions 1 and 2 exchanged. -/
def farTour2 : Nat → Int × Int := fun i =>
  if i = 1 then farTour 2 else if i = 2 then farTour 1 else farTour i

/-- A team memory holding the tour `farTour`, the scratch arrays zeroed. -/
def farTeam : Team (Int × Int) :=
  { p := farTour, buf := fun _ => 0,
    tile := { pS := fun _ => (0, 0), bfS := fun _ => 0 }, bufS := fun _ => 0 }

/-- The partial length of worker `lid`,
`term = 0; for (i = lid; i < cities; i += dim) term += dist(i, i + 1)`, the `int` register
wrapping at 32 bits. -/
def partialTerm {α : Type} (d : α → α → Int) (cities dim : Nat) (p : Nat → α) (lid : Nat) : Int :=
  strideLoop (fun i => decide (i < cities)) dim (fun i t => wrapInt (t + d (p i) (p (i + 1))))
    cities lid 0

/-- The state of the sum reduction: the register `term` of every worker and `buf_s`. -/
structure SumRed where
  term : Nat → Int
  bufS : Nat → Int

/-- One round of the sum reduction: every worker with `lid + k < j` adds slot `lid + k` to
its register (`term += buf_s[lid + k]`: `term` is converted to float, the sum is rounded
to float and converted back to `int`); after the barrier it stores `term` into the float
slot `lid`. -/
def sumRound (dim j k : Nat) (r : SumRed) : SumRed :=
  { term := fun lid =>
      if lid + k < j then wrapInt (toFloat (toFloat (r.term lid) + r.bufS (lid + k)))
      else r.term lid,
    bufS := forWorkers dim (fun lid b =>
      if lid + k < j then
        Function.update b lid
          (toFloat (wrapInt (toFloat (toFloat (r.term lid) + r.bufS (lid + k)))))
      else b) r.bufS }

/-- The sum reduction loop `j = dim; do ... while (j > 1)` with `k = (j + 1) / 2`. -/
def sumLoop (dim : Nat) : Nat → Nat → SumRed → SumRed
  | 0, _, r => r
  | fuel + 1, j, r =>
    let k := (j + 1) / 2
    let r1 := sumRound dim j k r
    if k > 1 then sumLoop dim fuel k r1 else r1

/-- The sum tree reduction of the local values `v lid`: `buf_s[lid] = term` in every worker
(a float store), then the reduction loop. -/
def sumReduce (dim : Nat) (v : Nat → Int) (bufS : Nat → Int) : SumRed :=
  sumLoop dim dim dim
    { term := v,
      bufS := forWorkers dim (fun lid b => Function.update b lid (toFloat (v lid))) bufS }

/-- The end of a restart on the converged tour `p`: the partial lengths, the sum reduction
and the merge of the `term` of worker 0 into `best[0]`.  The result is that `term` and the
new value of `best[0]`. -/
def converged {α : Type} (d : α → α → Int) (cities dim : Nat) (p : Nat → α) (bufS : Nat → Int)
    (best : Int) : Int × Int :=
  ((sumReduce dim (partialTerm d cities dim p) bufS).term 0,
    mergeBest best ((sumReduce dim (partialTerm d cities dim p) bufS).term 0))

/-- A tour of 100 cities that the local search leaves as it is: `(0, 0)`, `(16777218, 0)`,
then `(0, 98), (0, 97), ..., (0, 1)` at the positions 2 to 99, and the sentinel `(0, 0)`. -/
def sumTour : Nat → Int × Int := fun i =>
  if i = 0 then (0, 0) else if i = 1 then (16777218, 0)
  else if i < 100 then (0, 100 - (i : Int)) else (0, 0)

/-- A team memory holding the tour `sumTour`, the scratch arrays zeroed. -/
def sumTeam : Team (Int × Int) :=
  { p := sumTour, buf := fun _ => 0,
    tile := { pS := fun _ => (0, 0), bfS := fun _ => 0 }, bufS := fun _ => 0 }

/-- For every line `m` of a 100-city input file, the position at which the shuffle of
restart 0 places the city of that line. -/
def restart0Position : List Nat :=
  [0, 74, 2, 7, 83, 89, 73, 85, 9, 1, 57, 91, 28, 75, 43, 47, 30, 66, 58, 65, 77, 20, 69, 5, 16,
    6, 92, 81, 44, 21, 17, 62, 49, 55, 50, 61, 68, 67, 96, 94, 23, 31, 63, 39, 25, 54, 35, 95, 53,
    98, 48, 56, 18, 11, 87, 71, 42, 76, 14, 84, 33, 97, 45, 24, 41, 51, 70, 4, 52, 79, 59, 34, 60,
    3, 8, 36, 32, 15, 13, 19, 72, 86, 46, 99, 37, 26, 38, 40, 80, 12, 93, 64, 10, 88, 90, 27, 82,
    29, 22, 78]

/-- The input file whose cities restart 0 shuffles into the tour `farTour`: line `m` holds
the city `farTour (restart0Position[m])`. -/
def farCities : Nat → Int × Int := fun m => farTour (restart0Position.getD m 0)

/-- The input file whose cities restart 0 shuffles into the tour `sumTour`. -/
def sumCities : Nat → Int × Int := fun m => sumTour (restart0Position.getD m 0)

/-- The macro `tilesize`. -/
def tilesize : Nat := 128

/-- The loop `while (blocks * thr > 2048) blocks--`. -/
def blocksLoop (thr : Nat) : Nat → Nat → Nat
  | 0, blocks => blocks
  | fuel + 1, blocks => if blocks * thr > 2048 then blocksLoop thr fuel (blocks - 1) else blocks

/-- The value `perf` that the body of the loop of `best_thread_count` computes for `threads`,
with `sizeof(int) = sizeof(float) = 4`. -/
def perfOf (threads : Nat) : Nat :=
  let smem := 4 * threads + 2 * 4 * tilesize + 4 * tilesize
  let blocks := (16384 * 2) / smem
  let blocks := if blocks > 16 then 16 else blocks
  let thr := (threads + 31) / 32 * 32
  let blocks := blocksLoop thr blocks blocks
  threads * blocks

/-- The loop `for (threads = 1; threads <= max; threads++)` of `best_thread_count` on the
pair `(best, bthr)`. -/
def threadLoop (max : Nat) : Nat → Nat → Nat × Nat → Nat × Nat
  | 0, _, s => s
  | fuel + 1, threads, s =>
    if threads ≤ max then
      threadLoop max fuel (threads + 1)
        (if perfOf threads > s.1 then (perfOf threads, threads) else s)
    else s

/-- The function `best_thread_count`.  Every quantity in it is non-negative for
`cities >= 2`; below that `max` is not positive and the loop does not run, which the
truncated subtraction reproduces. -/
def best_thread_count (cities : Nat) : Nat :=
  let max := cities - 2
  let max := if max > 256 then 256 else max
  (threadLoop max max 1 (0, 4)).2

/-! ## Theorems -/

/-- C8: the seed update of `LCG_random` is `(26757677 * seed + 1) mod 2 ^ 31` over the
unbounded integers, whatever the 32-bit wraparound of the product does, and the new seed
is below `2 ^ 31`. -/
theorem LCG_random_seed_exact (seed : Nat) :
    (LCG_random seed).2 = (26757677 * seed + 1) % 2 ^ 31 ∧ (LCG_random seed).2 < 2 ^ 31 := by
  simp only [LCG_random, LCG_a, LCG_c, LCG_m]
  omega

/-- C7 (failing input): for the seed 199759 the new seed is 2147483620, its conversion to
float rounds up to `2 ^ 31`, so `LCG_random` returns exactly `1.0`, and with 100 cities
the shuffle index is 100, the sentinel slot. -/
theorem LCG_random_returns_one :
    (LCG_random 199759).2 = 2147483620 ∧ (LCG_random 199759).1 = 2 ^ 31 ∧
      shuffleIndex 100 (LCG_random 199759).1 = 100 := by
  decide

theorem forWorkers_succ {σ : Type} (dim : Nat) (f : Nat → σ → σ) (s : σ) :
    forWorkers (dim + 1) f s = f dim (forWorkers dim f s) := by
  simp [forWorkers, List.range_succ, List.foldl_append]

theorem forWorkers_induct {σ : Type} (P : Nat → σ → Prop) (dim : Nat) (f : Nat → σ → σ)
    (s : σ) (h0 : P 0 s) (hs : ∀ lid s, lid < dim → P lid s → P (lid + 1) (f lid s)) :
    P dim (forWorkers dim f s) := by
  induction dim with
  | zero => simpa [forWorkers] using h0
  | succ n ih =>
    rw [forWorkers_succ]
    exact hs n _ (Nat.lt_succ_self n)
      (ih (fun lid s hl hp => hs lid s (Nat.lt_succ_of_lt hl) hp))

theorem strideLoop_eq_foldl {σ : Type} (cond : Nat → Bool) (dim : Nat) (body : Nat → σ → σ)
    (fuel i : Nat) (s : σ) :
    strideLoop cond dim body fuel i s
      = (strideIdx cond dim fuel i).foldl (fun s i => body i s) s := by
  induction fuel generalizing i s with
  | zero => rfl
  | succ n ih =>
    simp only [strideLoop, strideIdx]
    split
    · simp [ih]
    · rfl

theorem le_of_mem_strideIdx (cond : Nat → Bool) (dim fuel i k : Nat)
    (h : k ∈ strideIdx cond dim fuel i) : i ≤ k := by
  induction fuel generalizing i with
  | zero => simp [strideIdx] at h
  | succ n ih =>
    simp only [strideIdx] at h
    split at h
    · rcases List.mem_cons.1 h with h | h
      · omega
      · have := ih _ h
        omega
    · simp at h

theorem strideIdx_nodup (cond : Nat → Bool) (dim fuel i : Nat) (hdim : 0 < dim) :
    (strideIdx cond dim fuel i).Nodup := by
  induction fuel generalizing i with
  | zero => simp [strideIdx]
  | succ n ih =>
    simp only [strideIdx]
    split
    · refine List.nodup_cons.2 ⟨fun h => ?_, ih _⟩
      have := le_of_mem_strideIdx _ _ _ _ _ h
      omega
    · simp

theorem mem_strideIdx (n dim fuel i k : Nat) (hdim : 0 < dim) (hf : n ≤ i + fuel) :
    k ∈ strideIdx (fun i => decide (i < n)) dim fuel i ↔ k < n ∧ ∃ t, k = i + t * dim := by
  induction fuel generalizing i with
  | zero =>
    simp only [strideIdx, List.not_mem_nil, false_iff]
    rintro ⟨h1, t, rfl⟩
    omega
  | succ m ih =>
    simp only [strideIdx]
    by_cases hi : i < n
    · simp only [hi, decide_True, if_true, List.mem_cons]
      rw [ih (i + dim) (by omega)]
      constructor
      · rintro (rfl | ⟨h1, t, rfl⟩)
        · exact ⟨hi, 0, by simp⟩
        · exact ⟨h1, t + 1, by ring⟩
      · rintro ⟨h1, t, rfl⟩
        cases t with
        | zero => left; simp
        | succ t => right; exact ⟨h1, t, by ring⟩
    · simp only [hi, decide_False, Bool.false_eq_true, if_false, List.not_mem_nil, false_iff]
      rintro ⟨h1, t, rfl⟩
      have : 0 ≤ t * dim := Nat.zero_le _
      omega

theorem mem_strideIdx_lid (n dim fuel lid k : Nat) (hlid : lid < dim) (hf : n ≤ fuel) :
    k ∈ strideIdx (fun i => decide (i < n)) dim fuel lid ↔ k < n ∧ k % dim = lid := by
  rw [mem_strideIdx n dim fuel lid k (by omega) (by omega)]
  constructor
  · rintro ⟨h1, t, rfl⟩
    exact ⟨h1, by rw [Nat.add_mul_mod_self_right, Nat.mod_eq_of_lt hlid]⟩
  · rintro ⟨h1, rfl⟩
    exact ⟨h1, k / dim, by rw [Nat.mul_comm]; exact (Nat.mod_add_div k dim).symm⟩

/-- The cooperative strided loop visits every position below `n` exactly once. -/
theorem teamLoop_visit (n fuel dim : Nat) (hdim : 0 < dim) (hf : n ≤ fuel) :
    ∃ l : List Nat, l.Nodup ∧ (∀ k, k ∈ l ↔ k < n) ∧
      ∀ (σ : Type) (body : Nat → σ → σ) (s : σ),
        teamLoop (fun i => decide (i < n)) fuel dim body s
          = l.foldl (fun s i => body i s) s := by
  refine ⟨(List.range dim).flatMap (fun lid => strideIdx (fun i => decide (i < n)) dim fuel lid),
    ?_, ?_, ?_⟩
  · rw [List.nodup_flatMap]
    refine ⟨fun x _ => strideIdx_nodup _ _ _ _ hdim, ?_⟩
    refine List.Pairwise.imp_of_mem ?_ (List.pairwise_lt_range dim)
    intro a b ha hb hab
    simp only [Function.onFun]
    intro k hka hkb
    rw [mem_strideIdx_lid n dim fuel a k (List.mem_range.1 ha) hf] at hka
    rw [mem_strideIdx_lid n dim fuel b k (List.mem_range.1 hb) hf] at hkb
    omega
  · intro k
    rw [List.mem_flatMap]
    constructor
    · rintro ⟨lid, hl, hk⟩
      exact ((mem_strideIdx_lid n dim fuel lid k (List.mem_range.1 hl) hf).1 hk).1
    · intro hk
      exact ⟨k % dim, List.mem_range.2 (Nat.mod_lt _ hdim),
        (mem_strideIdx_lid n dim fuel _ k (Nat.mod_lt _ hdim) hf).2 ⟨hk, rfl⟩⟩
  · intro σ body s
    simp only [teamLoop, forWorkers]
    generalize List.range dim = L
    induction L generalizing s with
    | nil => rfl
    | cons a L ih =>
      simp only [List.foldl_cons, List.flatMap_cons, List.foldl_append]
      rw [ih, strideLoop_eq_foldl]

/-- Fold of guarded single-slot writes: an invariant on every slot. -/
theorem foldl_slots {σ : Type} (body : Nat → σ → σ) (Q : σ → Nat → Prop) (R : σ → Nat → Prop)
    (hQ : ∀ s i k, k ≠ i → Q s k → Q (body i s) k)
    (hR : ∀ s i k, k ≠ i → R s k → R (body i s) k)
    (hnew : ∀ s i, Q s i → R (body i s) i)
    (l : List Nat) (hl : l.Nodup) (s : σ) (hs : ∀ k, Q s k) :
    ∀ k, (k ∈ l → R (l.foldl (fun s i => body i s) s) k) ∧
         (k ∉ l → Q (l.foldl (fun s i => body i s) s) k) := by
  induction l using List.reverseRecOn with
  | nil => intro k; simp [hs]
  | append_singleton l a ih =>
    have hl2 := List.nodup_append.1 hl
    have ha : a ∉ l := fun h => hl2.2.2 h (List.mem_singleton_self a) 
    intro k
    simp only [List.foldl_append, List.foldl_cons, List.foldl_nil, List.mem_append,
      List.mem_singleton]
    have ih := ih hl2.1
    constructor
    · rintro (h | rfl)
      · have hk : k ≠ a := fun e => ha (e ▸ h)
        exact hR _ _ _ hk ((ih k).1 h)
      · exact hnew _ _ ((ih k).2 ha)
    · intro h
      push_neg at h
      exact hQ _ _ _ h.2 ((ih k).2 h.1)

theorem bitLen_le (fuel n : Nat) : bitLen fuel n ≤ fuel := by
  induction fuel generalizing n with
  | zero => simp [bitLen]
  | succ f ih =>
    simp only [bitLen]
    split
    · omega
    · have := ih (n / 2)
      omega

theorem bitLen_le_of_lt (fuel n k : Nat) (h : n < 2 ^ k) : bitLen fuel n ≤ k := by
  induction fuel generalizing n k with
  | zero => simp [bitLen]
  | succ f ih =>
    simp only [bitLen]
    split
    · omega
    · rename_i hn
      cases k with
      | zero => simp at h; omega
      | succ k =>
        have h2 : n / 2 < 2 ^ k := by
          rw [Nat.pow_succ] at h
          omega
        have := ih (n / 2) k h2
        omega

theorem pow_bitLen_le (fuel n : Nat) (hn : 0 < n) : 2 ^ (bitLen fuel n - 1) ≤ n := by
  induction fuel generalizing n with
  | zero => simp [bitLen]; omega
  | succ f ih =>
    simp only [bitLen]
    rw [if_neg (by omega)]
    simp only [Nat.add_sub_cancel]
    by_cases h2 : n / 2 = 0
    · have e : bitLen f (n / 2) = 0 := by
        rw [h2]
        cases f <;> simp [bitLen]
      rw [e]
      simpa using hn
    · have h3 := ih (n / 2) (by omega)
      have h4 : 1 ≤ bitLen f (n / 2) ∨ bitLen f (n / 2) = 0 := by omega
      rcases h4 with h4 | h4
      · have e : bitLen f (n / 2) = (bitLen f (n / 2) - 1) + 1 := by omega
        rw [e, Nat.pow_succ]
        omega
      · rw [h4]
        simpa using hn

theorem bitLen_mono (fuel m n : Nat) (h : m ≤ n) : bitLen fuel m ≤ bitLen fuel n := by
  induction fuel generalizing m n with
  | zero => simp [bitLen]
  | succ f ih =>
    simp only [bitLen]
    by_cases hm : m = 0
    · simp [hm]
    · rw [if_neg hm, if_neg (by omega)]
      have := ih (m / 2) (n / 2) (Nat.div_le_div_right h)
      omega

theorem lt_pow_bitLen (fuel n : Nat) (h : bitLen fuel n < fuel) : n < 2 ^ bitLen fuel n := by
  induction fuel generalizing n with
  | zero => omega
  | succ f ih =>
    simp only [bitLen] at h ⊢
    by_cases hn : n = 0
    · simp [hn]
    · rw [if_neg hn] at h ⊢
      have := ih (n / 2) (by omega)
      rw [Nat.pow_succ]
      omega

theorem toF32_of_dvd (m : Nat) (h : 2 ^ (bitLen 64 m - 24) ∣ m) : toF32 m = m := by
  unfold toF32
  simp only
  have hr : m % 2 ^ (bitLen 64 m - 24) = 0 := Nat.mod_eq_zero_of_dvd h
  rw [hr, if_pos (by positivity)]
  exact Nat.div_mul_cancel h

theorem toF32_small (n : Nat) (h : n < 2 ^ 24) : toF32 n = n := by
  apply toF32_of_dvd
  have := bitLen_le_of_lt 64 n 24 h
  have e : bitLen 64 n - 24 = 0 := by omega
  rw [e]
  simp

theorem toF32_cases (n : Nat) :
    toF32 n = n / 2 ^ (bitLen 64 n - 24) * 2 ^ (bitLen 64 n - 24) ∨
      (toF32 n = (n / 2 ^ (bitLen 64 n - 24) + 1) * 2 ^ (bitLen 64 n - 24) ∧
        0 < n % 2 ^ (bitLen 64 n - 24)) := by
  unfold toF32
  simp only
  split
  · exact Or.inl rfl
  · split
    · exact Or.inr ⟨rfl, by omega⟩
    · split
      · exact Or.inl rfl
      · rename_i h1 h2 _
        refine Or.inr ⟨rfl, ?_⟩
        have : 0 < 2 ^ (bitLen 64 n - 24) := by positivity
        omega

theorem toF32_pos (n : Nat) (hn : 0 < n) : 0 < toF32 n := by
  have hle : 2 ^ (bitLen 64 n - 24) ≤ n :=
    le_trans (Nat.pow_le_pow_right (by decide) (by omega)) (pow_bitLen_le 64 n hn)
  have hq : 0 < n / 2 ^ (bitLen 64 n - 24) := Nat.div_pos hle (by positivity)
  have hp : 0 < 2 ^ (bitLen 64 n - 24) := by positivity
  rcases toF32_cases n with h | ⟨h, _⟩
  · rw [h]; exact Nat.mul_pos hq hp
  · rw [h]; exact Nat.mul_pos (by omega) hp

theorem toF32_idem (n : Nat) : toF32 (toF32 n) = toF32 n := by
  apply toF32_of_dvd
  have hdiv := Nat.div_add_mod n (2 ^ (bitLen 64 n - 24))
  have hp : 0 < 2 ^ (bitLen 64 n - 24) := by positivity
  rcases toF32_cases n with h | ⟨h, hr⟩
  · -- rounded down
    have hle : toF32 n ≤ n := by
      rw [h]
      exact Nat.div_mul_le_self _ _
    have hb := bitLen_mono 64 _ _ hle
    rw [h] at hb ⊢
    exact Dvd.dvd.mul_left (Nat.pow_dvd_pow 2 (by omega)) _
  · -- rounded up
    have hmod : n % 2 ^ (bitLen 64 n - 24) < 2 ^ (bitLen 64 n - 24) := Nat.mod_lt _ hp
    have hlt : n ≤ toF32 n := by
      rw [h, Nat.add_mul, Nat.one_mul]
      rw [Nat.mul_comm] at hdiv
      omega
    have hb := bitLen_mono 64 _ _ hlt
    by_cases heq : bitLen 64 (toF32 n) = bitLen 64 n
    · rw [heq, h]
      exact Dvd.intro_left _ rfl
    · have hL : bitLen 64 n < 64 := by
        have := bitLen_le 64 (toF32 n)
        omega
      have hL24 : 24 ≤ bitLen 64 n := by
        by_contra hc
        have e : bitLen 64 n - 24 = 0 := by omega
        rw [e] at hr
        rw [Nat.pow_zero, Nat.mod_one] at hr
        omega
      have hn := lt_pow_bitLen 64 n hL
      have hsplit : bitLen 64 n = 24 + (bitLen 64 n - 24) := by omega
      have hq : n / 2 ^ (bitLen 64 n - 24) < 2 ^ 24 := by
        rw [Nat.div_lt_iff_lt_mul hp, ← Nat.pow_add, ← hsplit]
        exact hn
      have hup : toF32 n ≤ 2 ^ bitLen 64 n := by
        rw [h]
        conv_rhs => rw [hsplit, Nat.pow_add]
        exact Nat.mul_le_mul_right _ hq
      have hge : 2 ^ bitLen 64 n ≤ toF32 n := by
        by_contra hc
        have := bitLen_le_of_lt 64 (toF32 n) (bitLen 64 n) (by omega)
        omega
      have hval : toF32 n = 2 ^ bitLen 64 n := le_antisymm hup hge
      have hb2 : bitLen 64 (toF32 n) ≤ bitLen 64 n + 1 := by
        apply bitLen_le_of_lt
        rw [hval]
        exact Nat.pow_lt_pow_right (by decide) (by omega)
      rw [hval] at hb2 ⊢
      exact Nat.pow_dvd_pow 2 (by omega)

theorem toFloat_exact (x : Int) (h1 : -16777216 < x) (h2 : x < 16777216) : toFloat x = x := by
  unfold toFloat
  split
  · rw [toF32_small _ (by omega)]
    omega
  · rw [toF32_small _ (by omega)]
    omega

theorem toFloat_nonneg (x : Int) (h : 0 ≤ x) : 0 ≤ toFloat x := by
  unfold toFloat
  rw [if_pos h]
  exact Int.natCast_nonneg _

theorem toFloat_neg (x : Int) (h : x < 0) : toFloat x < 0 := by
  unfold toFloat
  rw [if_neg (by omega)]
  have := toF32_pos (-x).toNat (by omega)
  omega

theorem toFloat_pos (x : Int) (h : 0 < x) : 0 < toFloat x := by
  unfold toFloat
  rw [if_pos (by omega)]
  have := toF32_pos x.toNat (by omega)
  omega

theorem toFloat_zero : toFloat 0 = 0 := by decide

theorem toFloat_eq_zero (x : Int) (h : toFloat x = 0) : x = 0 := by
  rcases lt_trichotomy x 0 with hx | hx | hx
  · have := toFloat_neg x hx; omega
  · exact hx
  · have := toFloat_pos x hx; omega

theorem toFloat_idem (x : Int) : toFloat (toFloat x) = toFloat x := by
  by_cases hx : 0 ≤ x
  · have h1 : toFloat x = (toF32 x.toNat : Int) := by
      unfold toFloat; rw [if_pos hx]
    rw [h1]
    unfold toFloat
    rw [if_pos (Int.natCast_nonneg _), Int.toNat_ofNat, toF32_idem]
  · have h1 : toFloat x = -(toF32 (-x).toNat : Int) := by
      unfold toFloat; rw [if_neg hx]
    have hp := toF32_pos (-x).toNat (by omega)
    rw [h1]
    unfold toFloat
    rw [if_neg (by omega)]
    have e : (- -(toF32 (-x).toNat : Int)).toNat = toF32 (-x).toNat := by omega
    rw [e, toF32_idem]

theorem toF32_bounds (n : Nat) :
    n / 2 ^ (bitLen 64 n - 24) * 2 ^ (bitLen 64 n - 24) ≤ toF32 n ∧
      toF32 n ≤ (n / 2 ^ (bitLen 64 n - 24) + 1) * 2 ^ (bitLen 64 n - 24) := by
  rcases toF32_cases n with h | ⟨h, _⟩
  · rw [h]
    exact ⟨le_refl _, Nat.mul_le_mul_right _ (Nat.le_succ _)⟩
  · rw [h]
    exact ⟨Nat.mul_le_mul_right _ (Nat.le_succ _), le_refl _⟩

theorem toF32_le_pow (n : Nat) (h : bitLen 64 n < 64) : toF32 n ≤ 2 ^ bitLen 64 n := by
  have hlt := lt_pow_bitLen 64 n h
  by_cases hs : bitLen 64 n ≤ 24
  · have : n < 2 ^ 24 := lt_of_lt_of_le hlt (Nat.pow_le_pow_right (by decide) hs)
    rw [toF32_small n this]
    omega
  · have he : bitLen 64 n = 24 + (bitLen 64 n - 24) := by omega
    have hq : n / 2 ^ (bitLen 64 n - 24) < 2 ^ 24 := by
      apply Nat.div_lt_of_lt_mul
      rw [← pow_add, Nat.add_comm, ← he]
      exact hlt
    calc toF32 n ≤ (n / 2 ^ (bitLen 64 n - 24) + 1) * 2 ^ (bitLen 64 n - 24) :=
          (toF32_bounds n).2
      _ ≤ 2 ^ 24 * 2 ^ (bitLen 64 n - 24) := Nat.mul_le_mul_right _ hq
      _ = 2 ^ bitLen 64 n := by rw [← pow_add, ← he]

theorem pow_le_toF32 (m : Nat) (hm : 0 < m) : 2 ^ (bitLen 64 m - 1) ≤ toF32 m := by
  have hle := pow_bitLen_le 64 m hm
  by_cases hs : bitLen 64 m ≤ 24
  · have e : bitLen 64 m - 24 = 0 := by omega
    have h := toF32_of_dvd m (by rw [e]; simp)
    rw [h]
    exact hle
  · have he : bitLen 64 m - 1 = 23 + (bitLen 64 m - 24) := by omega
    have hq : 2 ^ 23 ≤ m / 2 ^ (bitLen 64 m - 24) := by
      rw [Nat.le_div_iff_mul_le (by positivity), ← pow_add, ← he]
      exact hle
    calc 2 ^ (bitLen 64 m - 1) = 2 ^ 23 * 2 ^ (bitLen 64 m - 24) := by rw [← pow_add, ← he]
      _ ≤ m / 2 ^ (bitLen 64 m - 24) * 2 ^ (bitLen 64 m - 24) := Nat.mul_le_mul_right _ hq
      _ ≤ toF32 m := (toF32_bounds m).1

/-- Rounding to binary32 is monotone. -/
theorem toF32_mono (n m : Nat) (h : n ≤ m) : toF32 n ≤ toF32 m := by
  have hb := bitLen_mono 64 n m h
  by_cases he : bitLen 64 n - 24 = bitLen 64 m - 24
  · have hq : n / 2 ^ (bitLen 64 n - 24) ≤ m / 2 ^ (bitLen 64 m - 24) := by
      rw [he]
      exact Nat.div_le_div_right h
    by_cases hqe : n / 2 ^ (bitLen 64 n - 24) = m / 2 ^ (bitLen 64 m - 24)
    · have hn := Nat.div_add_mod n (2 ^ (bitLen 64 n - 24))
      have hm := Nat.div_add_mod m (2 ^ (bitLen 64 m - 24))
      have hr : n % 2 ^ (bitLen 64 n - 24) ≤ m % 2 ^ (bitLen 64 m - 24) := by
        rw [hqe, he] at hn
        have : 2 ^ (bitLen 64 m - 24) * (m / 2 ^ (bitLen 64 m - 24))
            + n % 2 ^ (bitLen 64 m - 24) ≤ 2 ^ (bitLen 64 m - 24) * (m / 2 ^ (bitLen 64 m - 24))
            + m % 2 ^ (bitLen 64 m - 24) := by omega
        rw [he]
        omega
      unfold toF32
      simp only
      rw [hqe, he] at *
      generalize 2 ^ (bitLen 64 m - 24) = P at *
      generalize m / P = Q at *
      generalize n % P = rn at *
      generalize m % P = rm at *
      have hPQ : Q * P ≤ (Q + 1) * P := Nat.mul_le_mul_right _ (Nat.le_succ _)
      split_ifs <;> omega
    · have hlt : n / 2 ^ (bitLen 64 n - 24) + 1 ≤ m / 2 ^ (bitLen 64 m - 24) := by omega
      calc toF32 n ≤ (n / 2 ^ (bitLen 64 n - 24) + 1) * 2 ^ (bitLen 64 n - 24) :=
            (toF32_bounds n).2
        _ ≤ m / 2 ^ (bitLen 64 m - 24) * 2 ^ (bitLen 64 m - 24) := by
            rw [he]
            exact Nat.mul_le_mul_right _ (by rw [he] at hlt; exact hlt)
        _ ≤ toF32 m := (toF32_bounds m).1
  · have h64 := bitLen_le 64 m
    have hlt : bitLen 64 n < bitLen 64 m := by omega
    have hm : 0 < m := by
      rcases Nat.eq_zero_or_pos m with h0 | h0
      · subst h0
        have : bitLen 64 0 = 0 := by decide
        omega
      · exact h0
    calc toF32 n ≤ 2 ^ bitLen 64 n := toF32_le_pow n (by omega)
      _ ≤ 2 ^ (bitLen 64 m - 1) := Nat.pow_le_pow_right (by decide) (by omega)
      _ ≤ toF32 m := pow_le_toF32 m hm

/-- Conversion of an `int` to float is monotone. -/
theorem toFloat_mono (x y : Int) (h : x ≤ y) : toFloat x ≤ toFloat y := by
  by_cases hx : 0 ≤ x
  · have hy : 0 ≤ y := le_trans hx h
    unfold toFloat
    rw [if_pos hx, if_pos hy]
    exact Int.ofNat_le.2 (toF32_mono _ _ (by omega))
  · by_cases hy : 0 ≤ y
    · have := toFloat_neg x (by omega)
      have := toFloat_nonneg y hy
      omega
    · unfold toFloat
      rw [if_neg hx, if_neg hy]
      have := Int.ofNat_le.2 (toF32_mono (-y).toNat (-x).toNat (by omega))
      omega

theorem gainTable_spec {α : Type} (d : α → α → Int) (cities dim : Nat) (p : Nat → α)
    (buf : Nat → Int) (hdim : 0 < dim) (k : Nat) (hk : k < cities) :
    gainTable d cities dim p buf k = -(d (p k) (p (k + 1))) := by
  obtain ⟨l, hnd, hmem, hfold⟩ := teamLoop_visit cities cities dim hdim (Nat.le_refl _)
  unfold gainTable
  rw [hfold]
  have h := foldl_slots (fun i (b : Nat → Int) => Function.update b i (-(d (p i) (p (i + 1)))))
    (fun _ _ => True) (fun b k => b k = -(d (p k) (p (k + 1))))
    (fun _ _ _ _ _ => trivial)
    (fun s i k hki hR => by simpa [Function.update_noteq hki] using hR)
    (fun s i _ => by simp) l hnd buf (fun _ => trivial) k
  exact h.1 ((hmem k).2 hk)

theorem loadTile_spec {α : Type} (ts dim : Nat) (p : Nat → α) (buf : Nat → Int) (ii : Nat)
    (bound : Int) (t : Tile α) (hdim : 0 < dim) (k : Nat) (hk : k < ts)
    (hb : (ii : Int) + 2 ≤ (k : Int) + bound) :
    (loadTile ts dim p buf ii bound t).pS k = p ((k : Int) + bound).toNat ∧
      (loadTile ts dim p buf ii bound t).bfS k = toFloat (buf ((k : Int) + bound).toNat) := by
  obtain ⟨l, hnd, hmem, hfold⟩ := teamLoop_visit ts ts dim hdim (Nat.le_refl _)
  unfold loadTile
  rw [hfold]
  have h := foldl_slots
    (fun k (t : Tile α) =>
      if (ii : Int) + 2 ≤ (k : Int) + bound then
        ({ pS := Function.update t.pS k (p ((k : Int) + bound).toNat),
           bfS := Function.update t.bfS k (toFloat (buf ((k : Int) + bound).toNat)) } : Tile α)
      else t)
    (fun _ _ => True)
    (fun t k => (ii : Int) + 2 ≤ (k : Int) + bound →
      t.pS k = p ((k : Int) + bound).toNat ∧
        t.bfS k = toFloat (buf ((k : Int) + bound).toNat))
    (fun _ _ _ _ _ => trivial)
    (fun s i k hki hR => by
      intro hg
      dsimp only
      split
      · simpa [Function.update_noteq hki] using hR hg
      · exact hR hg)
    (fun s i _ => by
      intro hg
      dsimp only
      simp [hg]) l hnd t (fun _ => trivial) k
  exact h.1 ((hmem k).2 hk) hb

theorem reduceRound_spec (dim j k : Nat) (r : Red) (hk : j ≤ k + k) (hj : j ≤ dim) (lid : Nat)
    (hagree : ∀ l, l < dim → r.change l = r.bufS l)
    (hrep : ∀ l, l < dim → toFloat (r.bufS l) = r.bufS l) :
    ((reduceRound dim j k r).bufS lid
        = if lid < dim ∧ lid + k < j then min (r.bufS lid) (r.bufS (lid + k)) else r.bufS lid) ∧
      (lid < dim → (reduceRound dim j k r).change lid = (reduceRound dim j k r).bufS lid) := by
  have h := forWorkers_induct
    (fun n (r1 : Red) => ∀ l,
      (l < n → (r1.bufS l = if l + k < j then min (r.bufS l) (r.bufS (l + k)) else r.bufS l) ∧
        r1.change l = r1.bufS l) ∧
      (n ≤ l → r1.bufS l = r.bufS l ∧ r1.change l = r.change l))
    dim
    (fun lid r =>
      if lid + k < j then
        let tmp := r.bufS (lid + k)
        let c := if r.change lid > tmp then tmp else r.change lid
        ({ change := Function.update r.change lid c,
           bufS := Function.update r.bufS lid (toFloat c) } : Red)
      else r) r
    (by intro l; simp)
    (by
      intro n r1 hn ih l
      have hagn := hagree n hn
      by_cases hc : n + k < j
      · simp only [hc, if_true]
        have hread : r1.bufS (n + k) = r.bufS (n + k) := ((ih (n + k)).2 (by omega)).1
        have hown := (ih n).2 (Nat.le_refl _)
        have hc_eq : (if r1.change n > r1.bufS (n + k) then r1.bufS (n + k) else r1.change n)
            = min (r.bufS n) (r.bufS (n + k)) := by
          rw [hread, hown.2, hagn]
          split
          · rw [min_eq_right]; omega
          · rw [min_eq_left]; omega
        have hrepc : toFloat (min (r.bufS n) (r.bufS (n + k)))
            = min (r.bufS n) (r.bufS (n + k)) := by
          rcases min_choice (r.bufS n) (r.bufS (n + k)) with e | e
          · rw [e]; exact hrep n hn
          · rw [e]; exact hrep (n + k) (by omega)
        constructor
        · intro hl
          by_cases hln : l = n
          · subst hln
            simp only [Function.update_same, hc, if_true, hc_eq, hrepc, and_self]
          · simp only [Function.update_noteq hln]
            exact (ih l).1 (by omega)
        · intro hl
          have hln : l ≠ n := by omega
          simp only [Function.update_noteq hln]
          exact (ih l).2 (by omega)
      · simp only [hc, if_false]
        constructor
        · intro hl
          by_cases hln : l = n
          · subst hln
            simp only [hc, if_false]
            exact ⟨((ih l).2 (Nat.le_refl _)).1,
              by rw [((ih l).2 (Nat.le_refl _)).2, ((ih l).2 (Nat.le_refl _)).1, hagn]⟩
          · exact (ih l).1 (by omega)
        · intro hl
          exact (ih l).2 (by omega))
  have h1 := h lid
  by_cases hl : lid < dim
  · refine ⟨?_, fun _ => (h1.1 hl).2⟩
    simpa [hl, reduceRound] using (h1.1 hl).1
  · refine ⟨?_, fun h2 => absurd h2 hl⟩
    simpa [hl, reduceRound] using (h1.2 (by omega)).1

theorem exists_isMinOf (v : Nat → Int) (dim : Nat) (hdim : 0 < dim) : ∃ M, IsMinOf M v dim := by
  induction dim with
  | zero => omega
  | succ n ih =>
    by_cases hn : 0 < n
    · obtain ⟨M, hle, l0, hl0, hl0M⟩ := ih hn
      by_cases hc : v n < M
      · exact ⟨v n, fun l hl => by
          by_cases e : l = n
          · subst e; exact le_refl _
          · have := hle l (by omega); omega, n, by omega, rfl⟩
      · exact ⟨M, fun l hl => by
          by_cases e : l = n
          · subst e; omega
          · exact hle l (by omega), l0, by omega, hl0M⟩
    · exact ⟨v 0, fun l hl => by
        have : l = 0 := by omega
        rw [this], 0, by omega, rfl⟩

theorem reduceLoop_spec (dim : Nat) (M : Int) (fuel j : Nat) (r : Red) (hj : j ≤ dim)
    (hj0 : 0 < j) (hf : j ≤ fuel) (hagree : ∀ l, l < dim → r.change l = r.bufS l)
    (hrep : ∀ l, l < dim → toFloat (r.bufS l) = r.bufS l)
    (hmin : IsMinOf M r.bufS j) :
    (reduceLoop dim fuel j r).bufS 0 = M := by
  induction fuel generalizing j r with
  | zero => omega
  | succ n ih =>
    simp only [reduceLoop]
    have hk : j ≤ (j + 1) / 2 + (j + 1) / 2 := by omega
    have hround := fun lid => reduceRound_spec dim j ((j + 1) / 2) r hk hj lid hagree hrep
    have hrep1 : ∀ l, l < dim → toFloat ((reduceRound dim j ((j + 1) / 2) r).bufS l)
        = (reduceRound dim j ((j + 1) / 2) r).bufS l := by
      intro l hl
      rw [(hround l).1]
      split
      · rename_i hc
        rcases min_choice (r.bufS l) (r.bufS (l + (j + 1) / 2)) with e | e
        · rw [e]; exact hrep l hl
        · rw [e]; exact hrep _ (by omega)
      · exact hrep l hl
    have hmin1 : IsMinOf M (reduceRound dim j ((j + 1) / 2) r).bufS ((j + 1) / 2) := by
      obtain ⟨hle, l0, hl0, hl0M⟩ := hmin
      constructor
      · intro l hl
        rw [(hround l).1]
        split
        · exact le_min (hle l (by omega)) (hle _ (by omega))
        · exact hle l (by omega)
      · by_cases hlow : l0 < (j + 1) / 2
        · refine ⟨l0, hlow, ?_⟩
          rw [(hround l0).1]
          split
          · have := hle (l0 + (j + 1) / 2) (by omega)
            rw [min_eq_left (by omega)]
            exact hl0M
          · exact hl0M
        · refine ⟨l0 - (j + 1) / 2, by omega, ?_⟩
          rw [(hround _).1]
          have e : l0 - (j + 1) / 2 + (j + 1) / 2 = l0 := by omega
          rw [e, if_pos ⟨by omega, by omega⟩]
          have := hle (l0 - (j + 1) / 2) (by omega)
          rw [min_eq_right (by omega)]
          exact hl0M
    split
    · exact ih ((j + 1) / 2) _ (by omega) (by omega) (by omega)
        (fun l hl => (hround l).2 hl) hrep1 hmin1
    · have h1 : (j + 1) / 2 = 1 := by omega
      obtain ⟨_, l, hl, hlM⟩ := hmin1
      have : l = 0 := by omega
      rw [← hlM, this]

/-- Slot 0 after the min reduction is the minimum of the local values as the float buffer
holds them. -/
theorem reduceMin_spec (dim : Nat) (v : Nat → Int) (bufS : Nat → Int) (hdim : 0 < dim) :
    IsMinOf ((reduceMin dim v bufS).bufS 0) (fun l => toFloat (v l)) dim := by
  have hinit : ∀ l, l < dim →
      forWorkers dim (fun lid b => Function.update b lid (toFloat (v lid))) bufS l
        = toFloat (v l) := by
    have h := forWorkers_induct
      (fun n (b : Nat → Int) => ∀ l, l < n → b l = toFloat (v l)) dim
      (fun lid b => Function.update b lid (toFloat (v lid))) bufS (by intro l hl; omega)
      (by
        intro n b _ ih l hl
        by_cases hln : l = n
        · subst hln; simp
        · simp only [Function.update_noteq hln]
          exact ih l (by omega))
    exact h
  obtain ⟨M, hM⟩ := exists_isMinOf (fun l => toFloat (v l)) dim hdim
  have h := reduceLoop_spec dim M dim dim
    { change := fun lid => toFloat (v lid),
      bufS := forWorkers dim (fun lid b => Function.update b lid (toFloat (v lid))) bufS }
    (Nat.le_refl _) hdim (Nat.le_refl _) (fun l hl => (hinit l hl).symm)
    (fun l hl => by
      show toFloat (forWorkers dim _ bufS l) = forWorkers dim _ bufS l
      rw [hinit l hl, toFloat_idem])
    ⟨fun l hl => by show M ≤ forWorkers dim _ bufS l; rw [hinit l hl]; exact hM.1 l hl,
      by
        obtain ⟨l, hl, e⟩ := hM.2
        exact ⟨l, hl, by show forWorkers dim _ bufS l = M; rw [hinit l hl]; exact e⟩⟩
  unfold reduceMin
  rw [h]
  exact hM

theorem Sound_mono {α : Type} (d : α → α → Int) (cities : Nat) (p : Nat → α)
    (C C1 : Nat → Nat → Prop) (m mini minj : Int) (h : ∀ i j, C1 i j → C i j)
    (hs : Sound d cities p C m mini minj) : Sound d cities p C1 m mini minj :=
  ⟨hs.1, fun i j hc => hs.2 i j (h i j hc)⟩

theorem scanJ_spec {α : Type} (d : α → α → Int) (cities : Nat) (p : Nat → α) (t : Tile α)
    (bound lower : Int) (i : Nat) (hlow : (i : Int) + 2 ≤ lower) :
    ∀ (fuel jj : Nat) (w : Worker α) (C : Nat → Nat → Prop),
      (jj : Int) + 1 ≤ lower + fuel → lower ≤ (jj : Int) + 1 → jj + 1 ≤ cities →
      (∀ j : Nat, lower ≤ (j : Int) → j ≤ jj →
        t.pS ((j : Int) - bound).toNat = p j ∧
          t.bfS ((j : Int) - bound).toNat = toFloat (-(d (p j) (p (j + 1))))) →
      w.pi0 = p i → w.pi1 = p (i + 1) → w.pj1 = p (jj + 1) →
      Sound d cities p C (w.minchange - d (p i) (p (i + 1))) w.mini w.minj →
      (scanJ d t bound lower i fuel jj w).pi0 = p i ∧
      (scanJ d t bound lower i fuel jj w).pi1 = p (i + 1) ∧
      (scanJ d t bound lower i fuel jj w).pj1 = p lower.toNat ∧
      Sound d cities p (fun i1 j1 => C i1 j1 ∨ (i1 = i ∧ lower ≤ (j1 : Int) ∧ j1 ≤ jj))
        ((scanJ d t bound lower i fuel jj w).minchange - d (p i) (p (i + 1)))
        (scanJ d t bound lower i fuel jj w).mini (scanJ d t bound lower i fuel jj w).minj := by
  intro fuel
  induction fuel with
  | zero =>
    intro jj w C hf hl hc _ h0 h1 hj hs
    have e : lower.toNat = jj + 1 := by omega
    simp only [scanJ]
    refine ⟨h0, h1, by rw [e]; exact hj, Sound_mono d cities p C _ _ _ _ ?_ hs⟩
    rintro i1 j1 (h | ⟨_, h2, h3⟩)
    · exact h
    · omega
  | succ n ih =>
    intro jj w C hf hl hc ht h0 h1 hj hs
    by_cases hle : lower ≤ (jj : Int)
    · have hjj : 1 ≤ jj := by omega
      have ecast : (jj : Int) - 1 = ((jj - 1 : Nat) : Int) := by omega
      obtain ⟨htp, htb⟩ := ht jj hle (Nat.le_refl _)
      simp only [scanJ, hle, if_true]
      rw [ecast, htp, htb, h0, h1, hj]
      have hchange : toFloat (toFloat (toFloat (-d (p jj) (p (jj + 1))) + toFloat (d (p i) (p jj)))
            + toFloat (d (p (i + 1)) (p (jj + 1))))
          = codeDelta d p i jj + d (p i) (p (i + 1)) := by
        unfold codeDelta; ring
      rw [hchange]
      have key : ∀ w1 : Worker α, w1.pi0 = p i → w1.pi1 = p (i + 1) → w1.pj1 = p (jj - 1 + 1) →
          Sound d cities p (fun i1 j1 => C i1 j1 ∨ (i1 = i ∧ j1 = jj))
            (w1.minchange - d (p i) (p (i + 1))) w1.mini w1.minj →
          (scanJ d t bound lower i n ((jj - 1 : Nat) : Int) w1).pi0 = p i ∧
          (scanJ d t bound lower i n ((jj - 1 : Nat) : Int) w1).pi1 = p (i + 1) ∧
          (scanJ d t bound lower i n ((jj - 1 : Nat) : Int) w1).pj1 = p lower.toNat ∧
          Sound d cities p (fun i1 j1 => C i1 j1 ∨ (i1 = i ∧ lower ≤ (j1 : Int) ∧ j1 ≤ jj))
            ((scanJ d t bound lower i n ((jj - 1 : Nat) : Int) w1).minchange
              - d (p i) (p (i + 1)))
            (scanJ d t bound lower i n ((jj - 1 : Nat) : Int) w1).mini
            (scanJ d t bound lower i n ((jj - 1 : Nat) : Int) w1).minj := by
        intro w1 g0 g1 gj gs
        obtain ⟨r0, r1, rj, rs⟩ := ih (jj - 1) w1 _ (by omega) (by omega) (by omega)
          (fun j hj1 hj2 => ht j hj1 (by omega)) g0 g1 gj gs
        refine ⟨r0, r1, rj, Sound_mono d cities p _ _ _ _ _ ?_ rs⟩
        rintro i1 j1 (h | ⟨h1, h2, h3⟩)
        · exact Or.inl (Or.inl h)
        · by_cases e : j1 = jj
          · exact Or.inl (Or.inr ⟨h1, e⟩)
          · exact Or.inr ⟨h1, h2, by omega⟩
      have ejj : jj - 1 + 1 = jj := by omega
      by_cases hgt : w.minchange > codeDelta d p i jj + d (p i) (p (i + 1))
      · simp only [hgt, if_true]
        apply key
        · rfl
        · rfl
        · simp [ejj]
        · refine ⟨Or.inr ⟨?_, i, jj, rfl, rfl, by omega, hc, ?_⟩, ?_⟩
          · have := hs.1
            simp only
            rcases this with ⟨h, _, _⟩ | ⟨h, _⟩ <;> omega
          · simp
          · rintro i1 j1 (h | ⟨rfl, rfl⟩)
            · have := hs.2 i1 j1 h
              simp only
              omega
            · simp
      · simp only [hgt, if_false]
        apply key
        · rfl
        · rfl
        · simp [ejj]
        · refine ⟨hs.1, ?_⟩
          rintro i1 j1 (h | ⟨rfl, rfl⟩)
          · exact hs.2 i1 j1 h
          · simp only
            omega
    · have e : lower.toNat = jj + 1 := by omega
      simp only [scanJ, hle, if_false]
      refine ⟨h0, h1, by rw [e]; exact hj, Sound_mono d cities p C _ _ _ _ ?_ hs⟩
      rintro i1 j1 (h | ⟨_, h2, h3⟩)
      · exact h
      · omega

theorem scanJ_empty {α : Type} (d : α → α → Int) (t : Tile α) (bound lower : Int) (i fuel : Nat)
    (jj : Int) (w : Worker α) (h : jj < lower) : scanJ d t bound lower i fuel jj w = w := by
  cases fuel with
  | zero => rfl
  | succ n =>
    have : ¬ lower ≤ jj := by omega
    simp [scanJ, this]

theorem tileLoop_inactive {α : Type} (d : α → α → Int) (cities ts dim : Nat) (p : Nat → α)
    (buf : Nat → Int) (ii lid : Nat) (hi : cities ≤ ii + lid + 2) :
    ∀ (fuel : Nat) (jj : Int) (s : Tile α × (Nat → Worker α)), jj + 1 ≤ cities →
      (tileLoop d ts dim p buf ii fuel jj s).2 lid = s.2 lid := by
  intro fuel
  induction fuel with
  | zero => intro jj s _; rfl
  | succ n ih =>
    intro jj s hjj
    simp only [tileLoop]
    split
    · rw [ih _ _ (by omega)]
      simp only [tileStep]
      apply scanJ_empty
      split <;> push_cast <;> omega
    · rfl

theorem tileLoop_active {α : Type} (d : α → α → Int) (cities ts dim : Nat) (p : Nat → α)
    (buf : Nat → Int) (ii lid : Nat) (C : Nat → Nat → Prop) (hdim : 0 < dim) (hts : 0 < ts)
    (hbuf : ∀ k, k < cities → buf k = -(d (p k) (p (k + 1)))) :
    ∀ (fuel : Nat) (jj : Int) (s : Tile α × (Nat → Worker α)),
      jj + 1 ≤ cities → jj - ii - 1 ≤ fuel →
      (s.2 lid).pi0 = p (ii + lid) → (s.2 lid).pi1 = p (ii + lid + 1) →
      (s.2 lid).pj1 = p (max jj.toNat (ii + lid + 1) + 1) →
      Sound d cities p
        (fun i1 j1 => C i1 j1 ∨
          (i1 = ii + lid ∧ max jj.toNat (ii + lid + 1) < j1 ∧ j1 + 1 ≤ cities))
        ((s.2 lid).minchange - d (p (ii + lid)) (p (ii + lid + 1)))
        (s.2 lid).mini (s.2 lid).minj →
      ((tileLoop d ts dim p buf ii fuel jj s).2 lid).pi0 = p (ii + lid) ∧
      ((tileLoop d ts dim p buf ii fuel jj s).2 lid).pi1 = p (ii + lid + 1) ∧
      Sound d cities p
        (fun i1 j1 => C i1 j1 ∨ (i1 = ii + lid ∧ ii + lid + 2 ≤ j1 ∧ j1 + 1 ≤ cities))
        (((tileLoop d ts dim p buf ii fuel jj s).2 lid).minchange
          - d (p (ii + lid)) (p (ii + lid + 1)))
        ((tileLoop d ts dim p buf ii fuel jj s).2 lid).mini
        ((tileLoop d ts dim p buf ii fuel jj s).2 lid).minj := by
  intro fuel
  induction fuel with
  | zero =>
    intro jj s hjj hf h0 h1 _ hs
    simp only [tileLoop]
    refine ⟨h0, h1, Sound_mono d cities p _ _ _ _ _ ?_ hs⟩
    rintro i1 j1 (h | ⟨h1, h2, h3⟩)
    · exact Or.inl h
    · exact Or.inr ⟨h1, by omega, h3⟩
  | succ n ih =>
    intro jj s hjj hf h0 h1 hj hs
    simp only [tileLoop]
    by_cases hge : (ii : Int) + 2 ≤ jj
    · simp only [hge, if_true]
      by_cases hact : ((ii + lid : Nat) : Int) + 2 ≤ jj
      · -- the worker scans this tile
        obtain ⟨jn, rfl⟩ := Int.eq_ofNat_of_zero_le (by omega : (0 : Int) ≤ jj)
        have hlower : (((ii + lid : Nat) : Int) + 2) ≤
            (if (jn : Int) - ts + 1 < ((ii + lid : Nat) : Int) + 2
              then ((ii + lid : Nat) : Int) + 2 else (jn : Int) - ts + 1) := by
          split <;> omega
        have hsc := scanJ_spec d cities p
          (loadTile ts dim p buf ii ((jn : Int) - ts + 1) s.1) ((jn : Int) - ts + 1)
          (if (jn : Int) - ts + 1 < ((ii + lid : Nat) : Int) + 2
              then ((ii + lid : Nat) : Int) + 2 else (jn : Int) - ts + 1)
          (ii + lid) hlower ts jn (s.2 lid) _
          (by split <;> omega) (by split <;> omega) (by omega)
          (by
            intro j hj1 hj2
            have hk : ((j : Int) - ((jn : Int) - ts + 1)).toNat < ts := by omega
            have hcast : ((((j : Int) - ((jn : Int) - ts + 1)).toNat : Nat) : Int)
                + ((jn : Int) - ts + 1) = (j : Int) := by
              have : ((jn : Int) - ts + 1) ≤ (j : Int) := by
                split at hj1 <;> omega
              omega
            have hg : (ii : Int) + 2 ≤
                ((((j : Int) - ((jn : Int) - ts + 1)).toNat : Nat) : Int)
                  + ((jn : Int) - ts + 1) := by
              rw [hcast]
              split at hj1 <;> omega
            have hl := loadTile_spec ts dim p buf ii ((jn : Int) - ts + 1) s.1 hdim _ hk hg
            rw [hcast] at hl
            simp only [Int.toNat_ofNat] at hl
            exact ⟨hl.1, by rw [hl.2, hbuf j (by omega)]⟩)
          h0 h1
          (by
            rw [hj]
            congr 2
            simp only [Int.toNat_ofNat]
            omega)
          hs
        obtain ⟨r0, r1, rj, rs⟩ := hsc
        apply ih
        · omega
        · omega
        · simpa [tileStep] using r0
        · simpa [tileStep] using r1
        · simp only [tileStep]
          rw [rj]
          congr 1
          split <;> omega
        · simp only [tileStep]
          refine Sound_mono d cities p _ _ _ _ _ ?_ rs
          rintro i1 j1 (h | ⟨h1, h2, h3⟩)
          · exact Or.inl (Or.inl h)
          · by_cases hc : j1 ≤ jn
            · refine Or.inr ⟨h1, ?_, hc⟩
              split <;> omega
            · refine Or.inl (Or.inr ⟨h1, ?_, h3⟩)
              simp only [Int.toNat_ofNat]
              omega
      · -- the tile lies below the positions of this worker
        have hemp : ((tileStep d ts dim p buf ii jj s).2 lid) = s.2 lid := by
          simp only [tileStep]
          apply scanJ_empty
          split <;> push_cast at * <;> omega
        have hmax : max jj.toNat (ii + lid + 1) = ii + lid + 1 := by
          push_cast at hact; omega
        have hmax2 : max (jj - (ts : Int)).toNat (ii + lid + 1) = ii + lid + 1 := by
          push_cast at hact; omega
        apply ih
        · omega
        · omega
        · rw [hemp]; exact h0
        · rw [hemp]; exact h1
        · rw [hemp, hj, hmax, hmax2]
        · rw [hemp, hmax2]
          rw [hmax] at hs
          exact hs
    · simp only [hge, if_false]
      refine ⟨h0, h1, Sound_mono d cities p _ _ _ _ _ ?_ hs⟩
      rintro i1 j1 (h | ⟨h1, h2, h3⟩)
      · exact Or.inl h
      · exact Or.inr ⟨h1, by omega, h3⟩

theorem scanRound_spec {α : Type} (d : α → α → Int) (cities ts dim : Nat) (p : Nat → α)
    (buf : Nat → Int) (ii lid : Nat) (C : Nat → Nat → Prop) (hdim : 0 < dim) (hts : 0 < ts)
    (hbuf : ∀ k, k < cities → buf k = -(d (p k) (p (k + 1))))
    (s : Tile α × (Nat → Worker α))
    (hs : Sound d cities p C (s.2 lid).minchange (s.2 lid).mini (s.2 lid).minj) :
    Sound d cities p
      (fun i1 j1 => C i1 j1 ∨ (i1 = ii + lid ∧ ii + lid + 2 ≤ j1 ∧ j1 + 1 ≤ cities))
      ((scanRound d cities ts dim p buf ii s).2 lid).minchange
      ((scanRound d cities ts dim p buf ii s).2 lid).mini
      ((scanRound d cities ts dim p buf ii s).2 lid).minj := by
  by_cases hact : ii + lid < cities - 2
  · have hb := hbuf (ii + lid) (by omega)
    have h := tileLoop_active d cities ts dim p buf ii lid C hdim hts hbuf cities
      ((cities : Int) - 1)
      (s.1, fun lid => roundPre cities p buf (ii + lid) (s.2 lid))
      (by omega) (by omega)
      (by simp [roundPre, hact]) (by simp [roundPre, hact])
      (by
        simp only [roundPre, hact, if_true]
        congr 1
        omega)
      (by
        simp only [roundPre, hact, if_true, hb]
        refine Sound_mono d cities p C _ _ _ _ ?_ ?_
        · rintro i1 j1 (h | ⟨_, h2, h3⟩)
          · exact h
          · omega
        · have e : (s.2 lid).minchange - -d (p (ii + lid)) (p (ii + lid + 1))
              - d (p (ii + lid)) (p (ii + lid + 1)) = (s.2 lid).minchange := by ring
          rw [e]
          exact hs)
    obtain ⟨_, _, r⟩ := h
    simp only [scanRound, roundPost, hact, if_true, hb]
    have e : ∀ x : Int, x + -d (p (ii + lid)) (p (ii + lid + 1))
        = x - d (p (ii + lid)) (p (ii + lid + 1)) := fun x => by ring
    rw [e]
    exact r
  · have h := tileLoop_inactive d cities ts dim p buf ii lid (by omega) cities
      ((cities : Int) - 1)
      (s.1, fun lid => roundPre cities p buf (ii + lid) (s.2 lid)) (by omega)
    simp only [scanRound, roundPost, hact, if_false]
    rw [h]
    simp only [roundPre, hact, if_false]
    refine Sound_mono d cities p C _ _ _ _ ?_ hs
    rintro i1 j1 (h | ⟨_, h2, h3⟩)
    · exact h
    · omega

theorem strideLoop_inv {σ : Type} (n dim : Nat) (hdim : 0 < dim) (body : Nat → σ → σ)
    (Inv : Nat → σ → Prop) (hstep : ∀ i s, i < n → Inv i s → Inv (i + dim) (body i s)) :
    ∀ (fuel i : Nat) (s : σ), n ≤ i + fuel → Inv i s →
      ∃ i1, n ≤ i1 ∧ Inv i1 (strideLoop (fun i => decide (i < n)) dim body fuel i s) := by
  intro fuel
  induction fuel with
  | zero => intro i s hf hi; exact ⟨i, by omega, hi⟩
  | succ m ih =>
    intro i s hf hi
    simp only [strideLoop]
    by_cases h : i < n
    · simp only [h, decide_True, if_true]
      exact ih (i + dim) _ (by omega) (hstep i s h hi)
    · simp only [h, decide_False, Bool.false_eq_true, if_false]
      exact ⟨i, by omega, hi⟩

theorem scan_spec {α : Type} (d : α → α → Int) (cities ts dim : Nat) (u : α) (p : Nat → α)
    (buf : Nat → Int) (t : Tile α) (hdim : 0 < dim) (hts : 0 < ts)
    (hbuf : ∀ k, k < cities → buf k = -(d (p k) (p (k + 1)))) (lid : Nat) :
    Sound d cities p (fun i j => i % dim = lid ∧ i + 2 ≤ j ∧ j + 1 ≤ cities)
      ((scan d cities ts dim u p buf t).2 lid).minchange
      ((scan d cities ts dim u p buf t).2 lid).mini
      ((scan d cities ts dim u p buf t).2 lid).minj := by
  have h := strideLoop_inv (cities - 2) dim hdim (scanRound d cities ts dim p buf)
    (fun I (s : Tile α × (Nat → Worker α)) => dim ∣ I ∧
      Sound d cities p (fun i j => i % dim = lid ∧ i < I ∧ i + 2 ≤ j ∧ j + 1 ≤ cities)
        (s.2 lid).minchange (s.2 lid).mini (s.2 lid).minj)
    (by
      rintro I s hI ⟨hdvd, hs⟩
      refine ⟨Dvd.dvd.add hdvd (dvd_refl dim), ?_⟩
      have h := scanRound_spec d cities ts dim p buf I lid _ hdim hts hbuf s hs
      refine Sound_mono d cities p _ _ _ _ _ ?_ h
      rintro i1 j1 ⟨h1, h2, h3, h4⟩
      by_cases hlt : i1 < I
      · exact Or.inl ⟨h1, hlt, h3, h4⟩
      · have hi1 : i1 = I + lid := by
          obtain ⟨q, hq⟩ := hdvd
          have e1 : (dim * q + (i1 - I)) % dim = (i1 - I) % dim := Nat.mul_add_mod _ _ _
          have e2 : dim * q + (i1 - I) = i1 := by omega
          rw [e2, h1, Nat.mod_eq_of_lt (by omega)] at e1
          omega
        exact Or.inr ⟨hi1, by omega, h4⟩)
    cities 0
    (t, fun _ => { minchange := 0, mini := 1, minj := 0, pi0 := u, pi1 := u, pj1 := u })
    (by omega)
    ⟨dvd_zero dim, Or.inl ⟨rfl, rfl, rfl⟩, by
      rintro i j ⟨_, h2, _⟩
      omega⟩
  obtain ⟨I, hI, _, hs⟩ := h
  refine Sound_mono d cities p _ _ _ _ _ ?_ hs
  rintro i j ⟨h1, h2, h3⟩
  exact ⟨h1, by omega, h2, h3⟩

theorem IsMinchange_unique (g : Nat → Nat → Int) (cities : Nat) (m n : Int)
    (hm : IsMinchange g cities m) (hn : IsMinchange g cities n) : m = n := by
  obtain ⟨m0, mle, mex⟩ := hm
  obtain ⟨n0, nle, nex⟩ := hn
  apply le_antisymm
  · rcases nex with h | ⟨i, j, h1, h2, h3⟩
    · omega
    · rw [← h3]; exact mle i j h1 h2
  · rcases mex with h | ⟨i, j, h1, h2, h3⟩
    · omega
    · rw [← h3]; exact nle i j h1 h2

theorem foldl_min_spec {β : Type} (f : β → Int) (l : List β) (m0 : Int) :
    l.foldl (fun m x => min m (f x)) m0 ≤ m0 ∧
      (∀ x ∈ l, l.foldl (fun m x => min m (f x)) m0 ≤ f x) ∧
      (l.foldl (fun m x => min m (f x)) m0 = m0 ∨
        ∃ x ∈ l, f x = l.foldl (fun m x => min m (f x)) m0) := by
  induction l generalizing m0 with
  | nil => simp
  | cons a l ih =>
    simp only [List.foldl_cons, List.mem_cons]
    obtain ⟨h1, h2, h3⟩ := ih (min m0 (f a))
    refine ⟨le_trans h1 (min_le_left _ _), ?_, ?_⟩
    · rintro x (rfl | hx)
      · exact le_trans h1 (min_le_right _ _)
      · exact h2 x hx
    · rcases h3 with h | ⟨x, hx, h⟩
      · rcases min_choice m0 (f a) with e | e
        · left; rw [h, e]
        · right; exact ⟨a, Or.inl rfl, by rw [h, e]⟩
      · right; exact ⟨x, Or.inr hx, h⟩

theorem foldl_foldl_min_spec {β γ : Type} (f : β → γ → Int) (J : β → List γ) (l : List β)
    (m0 : Int) :
    l.foldl (fun m i => (J i).foldl (fun m j => min m (f i j)) m) m0 ≤ m0 ∧
      (∀ i ∈ l, ∀ j ∈ J i,
        l.foldl (fun m i => (J i).foldl (fun m j => min m (f i j)) m) m0 ≤ f i j) ∧
      (l.foldl (fun m i => (J i).foldl (fun m j => min m (f i j)) m) m0 = m0 ∨
        ∃ i ∈ l, ∃ j ∈ J i,
          f i j = l.foldl (fun m i => (J i).foldl (fun m j => min m (f i j)) m) m0) := by
  induction l generalizing m0 with
  | nil => simp
  | cons a l ih =>
    simp only [List.foldl_cons, List.mem_cons]
    obtain ⟨h1, h2, h3⟩ := ih ((J a).foldl (fun m j => min m (f a j)) m0)
    obtain ⟨g1, g2, g3⟩ := foldl_min_spec (f a) (J a) m0
    refine ⟨le_trans h1 g1, ?_, ?_⟩
    · rintro i (rfl | hi) j hj
      · exact le_trans h1 (g2 j hj)
      · exact h2 i hi j hj
    · rcases h3 with h | ⟨i, hi, j, hj, h⟩
      · rcases g3 with g | ⟨j, hj, g⟩
        · left; rw [h, g]
        · right; exact ⟨a, Or.inl rfl, j, hj, by rw [h, g]⟩
      · right; exact ⟨i, Or.inr hi, j, hj, h⟩

theorem fold_isMinchange (g : Nat → Nat → Int) (cities : Nat) :
    IsMinchange g cities
      ((List.range (cities - 2)).foldl
        (fun m i => (List.range' (i + 2) (cities - (i + 2))).foldl
          (fun m j => min m (g i j)) m) 0) := by
  obtain ⟨h1, h2, h3⟩ := foldl_foldl_min_spec (fun i j => g i j)
    (fun i => List.range' (i + 2) (cities - (i + 2))) (List.range (cities - 2)) 0
  refine ⟨h1, ?_, ?_⟩
  · intro i j hij hj
    exact h2 i (List.mem_range.2 (by omega)) j (List.mem_range'_1.2 (by omega))
  · rcases h3 with h | ⟨i, hi, j, hj, h⟩
    · exact Or.inl h
    · have := List.mem_range.1 hi
      have := List.mem_range'_1.1 hj
      exact Or.inr ⟨i, j, by omega, by omega, h⟩

theorem naive_isMinchange {α : Type} (d : α → α → Int) (cities : Nat) (p : Nat → α) :
    IsMinchange (delta d p) cities (naiveMinchange d cities p) :=
  fold_isMinchange (delta d p) cities

theorem code_isMinchange {α : Type} (d : α → α → Int) (cities : Nat) (p : Nat → α) :
    IsMinchange (codeDelta d p) cities (codeMinchange d cities p) :=
  fold_isMinchange (codeDelta d p) cities

theorem publish_zero {α : Type} (dim : Nat) (ws : Nat → Worker α) (w : Nat) (bufS : Nat → Int) :
    publish dim ws w bufS 0 = bufS 0 := by
  unfold publish
  exact forWorkers_induct (fun _ (b : Nat → Int) => b 0 = bufS 0) dim
    (fun lid b =>
      if toFloat (lid : Int) = b 1 then
        Function.update (Function.update b 2 (toFloat ((ws lid).mini + 1))) 3
          (toFloat (ws lid).minj)
      else b) (Function.update bufS 1 (toFloat (w : Int))) (by simp)
    (by
      intro lid b _ ih
      dsimp only
      split
      · simpa using ih
      · exact ih)

/-- The slots 2 and 3 after the publication, when every worker that takes itself for the
winner holds the same move. -/
theorem publish_of_const {α : Type} (dim : Nat) (ws : Nat → Worker α) (w : Nat)
    (bufS : Nat → Int) (a c : Int) (hw : w < dim)
    (hall : ∀ l, l < dim → toFloat (l : Int) = toFloat (w : Int) →
      (ws l).mini = a ∧ (ws l).minj = c) :
    publish dim ws w bufS 2 = toFloat (a + 1) ∧ publish dim ws w bufS 3 = toFloat c := by
  unfold publish
  have h := forWorkers_induct
    (fun n (b : Nat → Int) => n ≤ dim → (b 1 = toFloat (w : Int) ∧
      (w < n → b 2 = toFloat (a + 1) ∧ b 3 = toFloat c))) dim
    (fun lid b =>
      if toFloat (lid : Int) = b 1 then
        Function.update (Function.update b 2 (toFloat ((ws lid).mini + 1))) 3
          (toFloat (ws lid).minj)
      else b) (Function.update bufS 1 (toFloat (w : Int))) (fun _ => ⟨by simp, by omega⟩)
    (by
      intro lid b _ ih hle
      obtain ⟨ih1, ih2⟩ := ih (by omega)
      dsimp only
      by_cases e : toFloat (lid : Int) = b 1
      · obtain ⟨ha, hc⟩ := hall lid (by omega) (by rw [e, ih1])
        simp only [e, if_true]
        exact ⟨by simp [ih1], fun _ => by simp [ha, hc]⟩
      · simp only [e, if_false]
        refine ⟨ih1, fun h => ih2 ?_⟩
        have : lid ≠ w := fun hl => e (by rw [hl, ih1])
        omega)
  exact (h (le_refl _)).2 hw

/-- The slots 2 and 3 after the publication, for a team of at most `2 ^ 24` workers, whose
ids are exact in float. -/
theorem publish_spec {α : Type} (dim : Nat) (ws : Nat → Worker α) (w : Nat) (bufS : Nat → Int)
    (hw : w < dim) (hdimB : dim ≤ 16777216) :
    publish dim ws w bufS 2 = toFloat ((ws w).mini + 1) ∧
      publish dim ws w bufS 3 = toFloat (ws w).minj := by
  apply publish_of_const dim ws w bufS _ _ hw
  intro l hl he
  rw [toFloat_exact _ (by omega) (by omega), toFloat_exact _ (by omega) (by omega)] at he
  have : l = w := by omega
  subst this
  exact ⟨rfl, rfl⟩

theorem localMin_sound {α : Type} (d : α → α → Int) (cities ts dim : Nat) (u : α) (T : Team α)
    (hdim : 0 < dim) (hts : 0 < ts) (lid : Nat) :
    Sound d cities T.p (fun i j => i % dim = lid ∧ i + 2 ≤ j ∧ j + 1 ≤ cities)
      (localMin d cities ts dim u T lid).minchange (localMin d cities ts dim u T lid).mini
      (localMin d cities ts dim u T lid).minj :=
  scan_spec d cities ts dim u T.p _ T.tile hdim hts
    (fun k hk => gainTable_spec d cities dim T.p T.buf hdim k hk) lid

theorem localMin_ge {α : Type} (d : α → α → Int) (cities ts dim : Nat) (u : α) (T : Team α)
    (hdim : 0 < dim) (hts : 0 < ts) (lid : Nat) :
    codeMinchange d cities T.p ≤ (localMin d cities ts dim u T lid).minchange ∧
      (localMin d cities ts dim u T lid).minchange ≤ 0 := by
  obtain ⟨h0, hle, _⟩ := code_isMinchange d cities T.p
  rcases (localMin_sound d cities ts dim u T hdim hts lid).1 with
    ⟨h, _, _⟩ | ⟨hneg, i, j, _, _, h1, h2, h3⟩
  · omega
  · have := hle i j h1 h2
    omega

/-- The reduced `minchange` is the float conversion of the least computed change. -/
theorem reduced_eq_code {α : Type} (d : α → α → Int) (cities ts dim : Nat) (u : α)
    (T : Team α) (hdim : 0 < dim) (hts : 0 < ts) :
    (reduced d cities ts dim u T).bufS 0 = toFloat (codeMinchange d cities T.p) := by
  obtain ⟨hle, l, hl, hlM⟩ := reduceMin_spec dim
    (fun lid => (localMin d cities ts dim u T lid).minchange) T.bufS hdim
  change (reduceMin dim (fun lid => (localMin d cities ts dim u T lid).minchange) T.bufS).bufS 0
    = toFloat (codeMinchange d cities T.p)
  simp only at hlM hle
  apply le_antisymm
  · obtain ⟨h0, _, hex⟩ := code_isMinchange d cities T.p
    rcases hex with h | ⟨i, j, h1, h2, h3⟩
    · refine le_trans (hle 0 hdim) (toFloat_mono _ _ ?_)
      rw [h]
      exact (localMin_ge d cities ts dim u T hdim hts 0).2
    · refine le_trans (hle (i % dim) (Nat.mod_lt _ hdim)) (toFloat_mono _ _ ?_)
      rw [← h3]
      exact (localMin_sound d cities ts dim u T hdim hts (i % dim)).2 i j ⟨rfl, h1, h2⟩
  · rw [← hlM]
    exact toFloat_mono _ _ (localMin_ge d cities ts dim u T hdim hts l).1

theorem pass_minchange {α : Type} (d : α → α → Int) (cities ts dim : Nat) (u : α) (w : Nat)
    (T : Team α) : (pass d cities ts dim u w T).2 = (reduced d cities ts dim u T).bufS 0 := by
  simp only [pass]
  rw [publish_zero]
  rfl

/-- The reduced `minchange` of a pass is the float conversion of the least change over all
legal exchanges, each change computed as the scan computes it; it depends on the tour
only. -/
theorem pass_minchange_code {α : Type} (d : α → α → Int) (cities ts dim : Nat) (u : α)
    (w : Nat) (T : Team α) (hdim : 0 < dim) (hts : 0 < ts) :
    (pass d cities ts dim u w T).2 = toFloat (codeMinchange d cities T.p) := by
  rw [pass_minchange]
  exact reduced_eq_code d cities ts dim u T hdim hts

/-- A worker whose positions contain an exchange of least computed change is an admissible
winner. -/
theorem winner_of_attains {α : Type} (d : α → α → Int) (cities ts dim : Nat) (u : α)
    (T : Team α) (hdim : 0 < dim) (hts : 0 < ts) (i j : Nat) (hij : i + 2 ≤ j)
    (hj : j + 1 ≤ cities) (h : codeDelta d T.p i j = codeMinchange d cities T.p) :
    Winner d cities ts dim u T (i % dim) := by
  refine ⟨Nat.mod_lt _ hdim, ?_⟩
  rw [reduced_eq_code d cities ts dim u T hdim hts]
  congr 1
  apply le_antisymm
  · rw [← h]
    exact (localMin_sound d cities ts dim u T hdim hts (i % dim)).2 i j ⟨rfl, hij, hj⟩
  · exact (localMin_ge d cities ts dim u T hdim hts (i % dim)).1

theorem swap_apply {α : Type} (p : Nat → α) (i j x : Nat) :
    swap p i j x = if x = j then p i else if x = i then p j else p x := by
  unfold swap
  by_cases h1 : x = j
  · subst h1; simp
  · by_cases h2 : x = i
    · subst h2; simp [Function.update_noteq h1, h1]
    · simp [Function.update_noteq h1, Function.update_noteq h2, h1, h2]

theorem swapFold_spec {α : Type} (mini sum : Nat) (p : Nat → α) (l : List Nat) (hnd : l.Nodup)
    (hl : ∀ k ∈ l, 2 * k < sum) (x : Nat) :
    (l.foldl (fun p k => if mini ≤ k then swap p k (sum - k) else p) p) x
      = if (x ∈ l ∧ mini ≤ x) ∨ (sum - x ∈ l ∧ x ≤ sum ∧ mini ≤ sum - x) then p (sum - x)
        else p x := by
  induction l using List.reverseRecOn generalizing x with
  | nil => simp
  | append_singleton l a ih =>
    have hl2 := List.nodup_append.1 hnd
    have ha : a ∉ l := fun h => hl2.2.2 h (List.mem_singleton_self a)
    have ih := ih hl2.1 (fun k hk => hl k (List.mem_append_left _ hk))
    have ha2 : 2 * a < sum := hl a (by simp)
    have hsa : sum - a ∉ l := fun h => by
      have := hl _ (List.mem_append_left _ h)
      omega
    have hssa : sum - (sum - a) = a := by omega
    have hqa : (l.foldl (fun p k => if mini ≤ k then swap p k (sum - k) else p) p) a = p a := by
      rw [ih a, if_neg]
      rintro (⟨h, _⟩ | ⟨h, _, _⟩)
      · exact ha h
      · exact hsa h
    have hqsa : (l.foldl (fun p k => if mini ≤ k then swap p k (sum - k) else p) p) (sum - a)
        = p (sum - a) := by
      rw [ih (sum - a), if_neg]
      rintro (⟨h, _⟩ | ⟨h, _, _⟩)
      · exact hsa h
      · rw [hssa] at h; exact ha h
    simp only [List.foldl_append, List.foldl_cons, List.foldl_nil, List.mem_append,
      List.mem_singleton]
    by_cases hm : mini ≤ a
    · simp only [hm, if_true]
      rw [swap_apply]
      by_cases hx1 : x = sum - a
      · subst hx1
        rw [if_pos rfl, hqa, if_pos (Or.inr ⟨Or.inr hssa, by omega, by omega⟩), hssa]
      · by_cases hx2 : x = a
        · subst hx2
          rw [if_neg hx1, if_pos rfl, hqsa, if_pos (Or.inl ⟨Or.inr rfl, hm⟩)]
        · rw [if_neg hx1, if_neg hx2, ih x]
          apply if_congr _ rfl rfl
          constructor
          · rintro (⟨h, h1⟩ | ⟨h, h1, h2⟩)
            · exact Or.inl ⟨Or.inl h, h1⟩
            · exact Or.inr ⟨Or.inl h, h1, h2⟩
          · rintro (⟨h | h, h1⟩ | ⟨h | h, h1, h2⟩)
            · exact Or.inl ⟨h, h1⟩
            · exact absurd h hx2
            · exact Or.inr ⟨h, h1, h2⟩
            · omega
    · simp only [hm, if_false]
      rw [ih x]
      apply if_congr _ rfl rfl
      constructor
      · rintro (⟨h, h1⟩ | ⟨h, h1, h2⟩)
        · exact Or.inl ⟨Or.inl h, h1⟩
        · exact Or.inr ⟨Or.inl h, h1, h2⟩
      · rintro (⟨h | h, h1⟩ | ⟨h | h, h1, h2⟩)
        · exact Or.inl ⟨h, h1⟩
        · omega
        · exact Or.inr ⟨h, h1, h2⟩
        · omega

/-- The effect of the cooperative swap loop when slot 2 holds `mini` and the float addition
of the slots 3 and 2 gives `sum`. -/
theorem applyMove_spec {α : Type} (dim : Nat) (bufS : Nat → Int) (p : Nat → α) (mini sum : Nat)
    (hdim : 0 < dim) (h2 : bufS 2 = (mini : Int))
    (h3 : toFloat (bufS 3 + toFloat (bufS 2)) = (sum : Int)) (x : Nat) :
    applyMove dim bufS p x
      = if mini ≤ x ∧ x + mini ≤ sum then p (sum - x) else p x := by
  have hcond : (fun i : Nat => decide ((i : Int) + i < toFloat (bufS 3 + toFloat (bufS 2))))
      = (fun i : Nat => decide (i < (sum + 1) / 2)) := by
    funext i
    rw [h3]
    apply decide_eq_decide.2
    omega
  have hbody : (fun (i : Nat) (p : Nat → α) =>
        if bufS 2 ≤ (i : Int) then
          swap p i (toFloat (bufS 3 + toFloat (bufS 2)) - (i : Int)).toNat
        else p)
      = (fun (i : Nat) (p : Nat → α) => if mini ≤ i then swap p i (sum - i) else p) := by
    funext i q
    rw [h3, h2]
    have e : ((sum : Int) - (i : Int)).toNat = sum - i := by omega
    rw [e]
    by_cases h : mini ≤ i
    · rw [if_pos h, if_pos (by omega)]
    · rw [if_neg h, if_neg (by omega)]
  obtain ⟨l, hnd, hmem, hfold⟩ := teamLoop_visit ((sum + 1) / 2) sum dim hdim (by omega)
  have hunf : applyMove dim bufS p
      = teamLoop (fun i : Nat => decide ((i : Int) + i < toFloat (bufS 3 + toFloat (bufS 2))))
          (toFloat (bufS 3 + toFloat (bufS 2))).toNat dim
          (fun (i : Nat) (p : Nat → α) =>
            if bufS 2 ≤ (i : Int) then
          swap p i (toFloat (bufS 3 + toFloat (bufS 2)) - (i : Int)).toNat
        else p) p :=
    rfl
  rw [hunf, hcond, hbody, h3, Int.toNat_ofNat, hfold]
  have h := swapFold_spec mini sum p l hnd (fun k hk => by have := (hmem k).1 hk; omega) x
  rw [show (fun (s : Nat → α) i => if mini ≤ i then swap s i (sum - i) else s)
    = (fun p k => if mini ≤ k then swap p k (sum - k) else p) from rfl, h]
  by_cases hc : mini ≤ x ∧ x + mini ≤ sum
  · rw [if_pos hc]
    by_cases hmid : 2 * x = sum
    · have : sum - x = x := by omega
      rw [this]
      split <;> rfl
    · rw [if_pos]
      by_cases hlow : 2 * x < sum
      · exact Or.inl ⟨(hmem x).2 (by omega), hc.1⟩
      · exact Or.inr ⟨(hmem _).2 (by omega), by omega, by omega⟩
  · rw [if_neg hc, if_neg]
    rintro (⟨h, h1⟩ | ⟨h, h1, h2⟩)
    · have := (hmem _).1 h
      omega
    · have := (hmem _).1 h
      omega

theorem tourLength_eq_sum {α : Type} (d : α → α → Int) (cities : Nat) (p : Nat → α) :
    tourLength d cities p = ∑ k ∈ Finset.range cities, d (p k) (p (k + 1)) := by
  unfold tourLength
  induction cities with
  | zero => simp
  | succ n ih => rw [List.sum_range_succ, Finset.sum_range_succ, ih]

theorem sum_split3 (f : Nat → Int) (i j n : Nat) (hij : i < j) (hj : j + 1 ≤ n) :
    ∑ k ∈ Finset.range n, f k
      = ∑ k ∈ Finset.Ico 0 i, f k + (f i + ∑ k ∈ Finset.Ico (i + 1) j, f k + f j)
        + ∑ k ∈ Finset.Ico (j + 1) n, f k := by
  rw [Finset.range_eq_Ico, ← Finset.sum_Ico_consecutive f (Nat.zero_le i) (by omega : i ≤ n),
    ← Finset.sum_Ico_consecutive f (by omega : i ≤ j + 1) hj,
    Finset.sum_Ico_succ_top (by omega : i ≤ j), Finset.sum_eq_sum_Ico_succ_bot hij]
  ring

/-- Reversing the positions `i + 1 .. j` changes the cyclic length by `delta i j`. -/
theorem tourLength_reverse {α : Type} (d : α → α → Int) (hsym : ∀ a b, d a b = d b a)
    (cities i j : Nat) (hij : i + 2 ≤ j) (hj : j + 1 ≤ cities) (p q : Nat → α)
    (hq : ∀ x, q x = if i + 1 ≤ x ∧ x ≤ j then p (j + i + 1 - x) else p x) :
    tourLength d cities q = tourLength d cities p + delta d p i j := by
  rw [tourLength_eq_sum, tourLength_eq_sum,
    sum_split3 (fun k => d (q k) (q (k + 1))) i j cities (by omega) hj,
    sum_split3 (fun k => d (p k) (p (k + 1))) i j cities (by omega) hj]
  have hlow : ∑ k ∈ Finset.Ico 0 i, d (q k) (q (k + 1))
      = ∑ k ∈ Finset.Ico 0 i, d (p k) (p (k + 1)) := by
    apply Finset.sum_congr rfl
    intro k hk
    have := (Finset.mem_Ico.1 hk).2
    rw [hq k, hq (k + 1), if_neg (by omega), if_neg (by omega)]
  have hhigh : ∑ k ∈ Finset.Ico (j + 1) cities, d (q k) (q (k + 1))
      = ∑ k ∈ Finset.Ico (j + 1) cities, d (p k) (p (k + 1)) := by
    apply Finset.sum_congr rfl
    intro k hk
    have := (Finset.mem_Ico.1 hk).1
    rw [hq k, hq (k + 1), if_neg (by omega), if_neg (by omega)]
  have hmid : ∑ k ∈ Finset.Ico (i + 1) j, d (q k) (q (k + 1))
      = ∑ k ∈ Finset.Ico (i + 1) j, d (p k) (p (k + 1)) := by
    have hrefl := Finset.sum_Ico_reflect (fun k => d (p k) (p (k + 1))) (i + 1)
      (by omega : j ≤ i + j + 1)
    have e1 : i + j + 1 - j = i + 1 := by omega
    have e2 : i + j + 1 - (i + 1) = j := by omega
    rw [e1, e2] at hrefl
    rw [← hrefl]
    apply Finset.sum_congr rfl
    intro k hk
    have h1 := (Finset.mem_Ico.1 hk).1
    have h2 := (Finset.mem_Ico.1 hk).2
    rw [hq k, hq (k + 1), if_pos (by omega), if_pos (by omega)]
    have e3 : j + i + 1 - k = i + j - k + 1 := by omega
    have e4 : j + i + 1 - (k + 1) = i + j - k := by omega
    rw [e3, e4]
    exact hsym _ _
  have hi : d (q i) (q (i + 1)) = d (p i) (p j) := by
    rw [hq i, hq (i + 1), if_neg (by omega), if_pos (by omega)]
    have e : j + i + 1 - (i + 1) = j := by omega
    rw [e]
  have hjj : d (q j) (q (j + 1)) = d (p (i + 1)) (p (j + 1)) := by
    rw [hq j, hq (j + 1), if_pos (by omega), if_neg (by omega)]
    have e : j + i + 1 - j = i + 1 := by omega
    rw [e]
  simp only [hlow, hhigh, hmid, hi, hjj]
  unfold delta
  ring

/-- An improving pass of a team of at most `2 ^ 24` workers on at most `2 ^ 23` cities
reverses the positions `i + 1 .. j` of an exchange whose computed change, converted to
float, is the reduced `minchange`. -/
theorem pass_improving {α : Type} (d : α → α → Int) (cities ts dim : Nat) (u : α) (w : Nat)
    (T : Team α) (hdim : 0 < dim) (hts : 0 < ts) (hdimB : dim ≤ 16777216)
    (hcB : cities ≤ 8388608) (hw : Winner d cities ts dim u T w)
    (hneg : (pass d cities ts dim u w T).2 < 0) :
    ∃ i j, i + 2 ≤ j ∧ j + 1 ≤ cities ∧
      toFloat (codeDelta d T.p i j) = (pass d cities ts dim u w T).2 ∧
      ∀ x, (pass d cities ts dim u w T).1.p x
        = if i + 1 ≤ x ∧ x ≤ j then T.p (j + i + 1 - x) else T.p x := by
  rw [pass_minchange] at hneg ⊢
  obtain ⟨hwd, hwm⟩ := hw
  rcases (localMin_sound d cities ts dim u T hdim hts w).1 with
    ⟨h, _, _⟩ | ⟨_, i, j, hi, hj, h1, h2, h3⟩
  · rw [h, toFloat_zero] at hwm
    omega
  · refine ⟨i, j, h1, h2, by rw [h3, hwm], fun x => ?_⟩
    obtain ⟨p2, p3⟩ := publish_spec dim (localMin d cities ts dim u T) w
      (reduced d cities ts dim u T).bufS hwd hdimB
    rw [hi, toFloat_exact _ (by omega) (by omega)] at p2
    rw [hj, toFloat_exact _ (by omega) (by omega)] at p3
    have h := applyMove_spec dim
      (publish dim (localMin d cities ts dim u T) w (reduced d cities ts dim u T).bufS) T.p
      (i + 1) (j + i + 1) hdim (by rw [p2]; push_cast; ring)
      (by
        rw [p2, p3, toFloat_exact ((i : Int) + 1) (by omega) (by omega),
          toFloat_exact ((j : Int) + ((i : Int) + 1)) (by omega) (by omega)]
        push_cast
        ring) x
    have e : (pass d cities ts dim u w T).1.p x = applyMove dim
      (publish dim (localMin d cities ts dim u T) w (reduced d cities ts dim u T).bufS) T.p x :=
      rfl
    rw [e, h]
    apply if_congr _ rfl rfl
    constructor <;> rintro ⟨a, b⟩ <;> exact ⟨a, by omega⟩

/-- A pass whose reduced `minchange` is 0 publishes the defaults and swaps nothing, for every
team size. -/
theorem pass_noop {α : Type} (d : α → α → Int) (cities ts dim : Nat) (u : α) (w : Nat)
    (T : Team α) (hdim : 0 < dim) (hts : 0 < ts) (hw : Winner d cities ts dim u T w)
    (hz : (pass d cities ts dim u w T).2 = 0) (x : Nat) :
    (pass d cities ts dim u w T).1.p x = T.p x := by
  rw [pass_minchange_code d cities ts dim u w T hdim hts] at hz
  have hM := toFloat_eq_zero _ hz
  have hdef : ∀ l, l < dim → toFloat (l : Int) = toFloat (w : Int) →
      (localMin d cities ts dim u T l).mini = 1 ∧ (localMin d cities ts dim u T l).minj = 0 := by
    intro l _ _
    have hge := localMin_ge d cities ts dim u T hdim hts l
    rcases (localMin_sound d cities ts dim u T hdim hts l).1 with ⟨_, hi, hj⟩ | ⟨h, _⟩
    · exact ⟨hi, hj⟩
    · omega
  obtain ⟨p2, p3⟩ := publish_of_const dim (localMin d cities ts dim u T) w
    (reduced d cities ts dim u T).bufS 1 0 hw.1 hdef
  have e2 : toFloat (1 + 1) = 2 := by decide
  have e3 : toFloat ((0 : Int) + toFloat ((2 : Nat) : Int)) = ((2 : Nat) : Int) := by decide
  rw [e2] at p2
  rw [toFloat_zero] at p3
  have h := applyMove_spec dim
    (publish dim (localMin d cities ts dim u T) w (reduced d cities ts dim u T).bufS) T.p
    2 2 hdim (by rw [p2]; rfl) (by rw [p2, p3]; exact e3) x
  have e : (pass d cities ts dim u w T).1.p x = applyMove dim
    (publish dim (localMin d cities ts dim u T) w (reduced d cities ts dim u T).bufS) T.p x :=
    rfl
  rw [e, h, if_neg (by omega)]

theorem codeDelta_eq_delta {α : Type} (d : α → α → Int) (cities : Nat) (p : Nat → α)
    (hB : SmallDist d cities p) (i j : Nat) (hij : i + 2 ≤ j) (hj : j + 1 ≤ cities) :
    codeDelta d p i j = delta d p i j := by
  have h1 := hB j (j + 1) (by omega) (by omega)
  have h2 := hB i j (by omega) (by omega)
  have h3 := hB (i + 1) (j + 1) (by omega) (by omega)
  unfold codeDelta delta
  rw [toFloat_exact (-(d (p j) (p (j + 1)))) (by omega) (by omega),
    toFloat_exact (d (p i) (p j)) (by omega) (by omega),
    toFloat_exact (d (p (i + 1)) (p (j + 1))) (by omega) (by omega),
    toFloat_exact (-(d (p j) (p (j + 1))) + d (p i) (p j)) (by omega) (by omega),
    toFloat_exact (-(d (p j) (p (j + 1))) + d (p i) (p j) + d (p (i + 1)) (p (j + 1)))
      (by omega) (by omega)]
  ring

theorem codeMinchange_eq_naive {α : Type} (d : α → α → Int) (cities : Nat) (p : Nat → α)
    (hB : SmallDist d cities p) : codeMinchange d cities p = naiveMinchange d cities p := by
  obtain ⟨h0, hle, hex⟩ := code_isMinchange d cities p
  refine IsMinchange_unique (delta d p) cities _ _ ⟨h0, ?_, ?_⟩ (naive_isMinchange d cities p)
  · intro i j hij hj
    rw [← codeDelta_eq_delta d cities p hB i j hij hj]
    exact hle i j hij hj
  · rcases hex with h | ⟨i, j, hij, hj, h⟩
    · exact Or.inl h
    · exact Or.inr ⟨i, j, hij, hj, by rw [← codeDelta_eq_delta d cities p hB i j hij hj, h]⟩

theorem delta_small {α : Type} (d : α → α → Int) (cities : Nat) (p : Nat → α)
    (hB : SmallDist d cities p) (i j : Nat) (hij : i + 2 ≤ j) (hj : j + 1 ≤ cities) :
    -16777216 < delta d p i j ∧ delta d p i j < 16777216 := by
  have h1 := hB j (j + 1) (by omega) (by omega)
  have h2 := hB i j (by omega) (by omega)
  have h3 := hB (i + 1) (j + 1) (by omega) (by omega)
  have h4 := hB i (i + 1) (by omega) (by omega)
  unfold delta
  omega

/-- Below the rounding threshold the float buffers are exact: when every truncated distance
of the tour is below `2 ^ 22`, the reduced `minchange` of a pass is the value of the naive
double loop, for every team size and tile size. -/
theorem minchange_eq_naive {α : Type} (d : α → α → Int) (cities ts dim : Nat) (u : α)
    (w : Nat) (T : Team α) (hdim : 0 < dim) (hts : 0 < ts) (hB : SmallDist d cities T.p) :
    (pass d cities ts dim u w T).2 = naiveMinchange d cities T.p := by
  rw [pass_minchange_code d cities ts dim u w T hdim hts, codeMinchange_eq_naive d cities T.p hB]
  obtain ⟨h0, _, hex⟩ := naive_isMinchange d cities T.p
  rcases hex with h | ⟨i, j, hij, hj, h⟩
  · rw [h, toFloat_zero]
  · have := delta_small d cities T.p hB i j hij hj
    exact toFloat_exact _ (by omega) (by omega)

/-- Below the rounding thresholds an improving pass shortens the tour by `-minchange`. -/
theorem length_after_pass {α : Type} (d : α → α → Int) (cities ts dim : Nat) (u : α)
    (w : Nat) (T : Team α) (hsym : ∀ a b, d a b = d b a) (hdim : 0 < dim) (hts : 0 < ts)
    (hdimB : dim ≤ 16777216) (hcB : cities ≤ 8388608) (hB : SmallDist d cities T.p)
    (hw : Winner d cities ts dim u T w) (hneg : (pass d cities ts dim u w T).2 < 0) :
    tourLength d cities (pass d cities ts dim u w T).1.p
        = tourLength d cities T.p + (pass d cities ts dim u w T).2 := by
  obtain ⟨i, j, h1, h2, h3, h4⟩ :=
    pass_improving d cities ts dim u w T hdim hts hdimB hcB hw hneg
  have h := tourLength_reverse d hsym cities i j h1 h2 T.p _ h4
  rw [codeDelta_eq_delta d cities T.p hB i j h1 h2] at h3
  have := delta_small d cities T.p hB i j h1 h2
  rw [toFloat_exact _ (by omega) (by omega)] at h3
  rw [h3] at h
  exact h

/-- C9: a pass whose reduced `minchange` is 0 leaves every tour position unchanged, for
every team size and every admissible winner, and every pass over the same tour, whatever the
scratch memory holds and whoever wins, again yields `minchange = 0`. -/
theorem pass_stable {α : Type} (d : α → α → Int) (cities ts dim : Nat) (u : α) (w : Nat)
    (T : Team α) (hdim : 1 ≤ dim) (hts : 1 ≤ ts) (hw : Winner d cities ts dim u T w)
    (hz : (pass d cities ts dim u w T).2 = 0) :
    (pass d cities ts dim u w T).1.p = T.p ∧
      ∀ (T1 : Team α) (w1 : Nat), T1.p = T.p → (pass d cities ts dim u w1 T1).2 = 0 := by
  refine ⟨funext (pass_noop d cities ts dim u w T hdim hts hw hz), fun T1 w1 h => ?_⟩
  rw [pass_minchange_code d cities ts dim u w1 T1 hdim hts, h,
    ← pass_minchange_code d cities ts dim u w T hdim hts, hz]

/-- C9 (witness): the crossed unit square, where no exchange improves. -/
theorem pass_stable_witness :
    1 ≤ 2 ∧ 1 ≤ 128 ∧ Winner gridDist 4 128 2 (0, 0) crossedSquare 1 ∧
      (pass gridDist 4 128 2 (0, 0) 1 crossedSquare).2 = 0 ∧
      ((pass gridDist 4 128 2 (0, 0) 1 crossedSquare).1.p = crossedSquare.p ∧
        ∀ (T1 : Team (Int × Int)) (w1 : Nat), T1.p = crossedSquare.p →
          (pass gridDist 4 128 2 (0, 0) w1 T1).2 = 0) :=
  ⟨by decide, by decide, by decide, by decide,
    pass_stable gridDist 4 128 2 (0, 0) 1 crossedSquare (by decide) (by decide) (by decide)
      (by decide)⟩

theorem tourLength_nonneg {α : Type} (d : α → α → Int) (cities : Nat) (p : Nat → α)
    (hnonneg : ∀ a b, 0 ≤ d a b) : 0 ≤ tourLength d cities p := by
  rw [tourLength_eq_sum]
  exact Finset.sum_nonneg (fun k _ => hnonneg _ _)

/-- Below the rounding thresholds the local search terminates: for a symmetric non-negative
distance, the improving passes that start from a tour whose distances are all below
`2 ^ 22` strictly shorten the tour, so their relation is well founded. -/
theorem improves_small_wellFounded {α : Type} (d : α → α → Int) (cities ts dim : Nat) (u : α)
    (hsym : ∀ a b, d a b = d b a) (hnonneg : ∀ a b, 0 ≤ d a b) (hdim : 0 < dim) (hts : 0 < ts)
    (hdimB : dim ≤ 16777216) (hcB : cities ≤ 8388608) :
    WellFounded (fun T1 T => Improves d cities ts dim u T1 T ∧ SmallDist d cities T.p) := by
  refine Subrelation.wf ?_ (InvImage.wf (fun T : Team α => (tourLength d cities T.p).toNat)
    Nat.lt_wfRel.wf)
  rintro T1 T ⟨⟨w, hw, hneg, rfl⟩, hB⟩
  have h := length_after_pass d cities ts dim u w T hsym hdim hts hdimB hcB hB hw hneg
  have h0 := tourLength_nonneg d cities (pass d cities ts dim u w T).1.p hnonneg
  show (tourLength d cities (pass d cities ts dim u w T).1.p).toNat
    < (tourLength d cities T.p).toNat
  omega

/-- Below the rounding threshold the reduction is exact: when every local value is below
`2 ^ 24` in magnitude, slot 0 ends as the minimum of the values of the `dim` workers. -/
theorem reduceMin_exact (dim : Nat) (v : Nat → Int) (bufS : Nat → Int) (hdim : 1 ≤ dim)
    (hv : ∀ lid, lid < dim → -16777216 < v lid ∧ v lid < 16777216) :
    (∀ lid, lid < dim → (reduceMin dim v bufS).bufS 0 ≤ v lid) ∧
      ∃ lid, lid < dim ∧ (reduceMin dim v bufS).bufS 0 = v lid := by
  obtain ⟨h1, l, hl, h2⟩ := reduceMin_spec dim v bufS hdim
  refine ⟨fun lid hlid => ?_, l, hl, ?_⟩
  · have := h1 lid hlid
    simp only at this
    rw [toFloat_exact _ (hv lid hlid).1 (hv lid hlid).2] at this
    exact this
  · rw [← h2]
    exact toFloat_exact _ (hv l hl).1 (hv l hl).2

/-- C4 (failing input): a team of 98 workers in which worker 1 holds the local value
`-16777217` and every other worker holds 0.  `int change = buf_s[lid] = minchange` stores the
value into the float buffer, where it becomes `-16777216`; after the halving loop slot 0
holds `-16777216`, which is the value of no worker and not the minimum `-16777217`. -/
theorem reduceMin_rounds_minimum :
    (reduceMin 98 (fun lid => if lid = 1 then -16777217 else 0) (fun _ => 0)).bufS 0
        = -16777216 ∧
      ¬ (reduceMin 98 (fun lid => if lid = 1 then -16777217 else 0) (fun _ => 0)).bufS 0
        ≤ (fun lid : Nat => if lid = 1 then (-16777217 : Int) else 0) 1 := by
  obtain ⟨hle, l, _, hl⟩ := reduceMin_spec 98
    (fun lid => if lid = 1 then (-16777217 : Int) else 0) (fun _ => 0) (by decide)
  have h1 := hle 1 (by decide)
  have e1 : toFloat (-16777217) = -16777216 := by decide
  simp only [if_true] at h1
  rw [e1] at h1
  have hv : (reduceMin 98 (fun lid => if lid = 1 then -16777217 else 0) (fun _ => 0)).bufS 0
      = -16777216 := by
    rw [← hl]
    simp only
    split
    · exact e1
    · rw [← hl] at h1
      simp only at h1
      rw [if_neg (by assumption), toFloat_zero] at h1
      omega
  exact ⟨hv, by rw [hv]; decide⟩

/-- C10 (counterexample): on the crossed unit square, with two workers, the admissible
winner 0 and tiles of 128, the pass finds no improving move (the reduced `minchange` is not
negative) and the tour keeps the crossed order. -/
theorem crossedSquare_no_improving_move :
    Winner gridDist 4 128 2 (0, 0) crossedSquare 0 ∧
      ¬ (pass gridDist 4 128 2 (0, 0) 0 crossedSquare).2 < 0 ∧
      ∀ k, k < 5 → (pass gridDist 4 128 2 (0, 0) 0 crossedSquare).1.p k = crossedSquare.p k := by
  decide

/-- C10 (what the pass does instead): one pass over the crossed unit square, for every team
size, tile size, scratch memory and admissible winner, finds no improving move (the
truncated distance between any two distinct corners is 1, so every exchange has change 0),
leaves the tour as it is, and the tour has length 4 under the truncated distance. -/
theorem crossedSquare_pass (ts dim : Nat) (u : Int × Int) (w : Nat) (T : Team (Int × Int))
    (hdim : 1 ≤ dim) (hts : 1 ≤ ts) (hT : T.p = crossedSquare.p)
    (hw : Winner gridDist 4 ts dim u T w) :
    (pass gridDist 4 ts dim u w T).2 = 0 ∧ (pass gridDist 4 ts dim u w T).1.p = T.p ∧
      tourLength gridDist 4 (pass gridDist 4 ts dim u w T).1.p = 4 := by
  have hz : (pass gridDist 4 ts dim u w T).2 = 0 := by
    rw [pass_minchange_code gridDist 4 ts dim u w T hdim hts, hT]
    decide
  have hp : (pass gridDist 4 ts dim u w T).1.p = T.p :=
    funext (pass_noop gridDist 4 ts dim u w T hdim hts hw hz)
  refine ⟨hz, hp, ?_⟩
  rw [hp, hT]
  decide

/-- C10 (witness): two workers, tiles of 128, zeroed scratch memory, winner 0. -/
theorem crossedSquare_pass_witness :
    1 ≤ 2 ∧ 1 ≤ 128 ∧ crossedSquare.p = crossedSquare.p ∧
      Winner gridDist 4 128 2 (0, 0) crossedSquare 0 ∧
      ((pass gridDist 4 128 2 (0, 0) 0 crossedSquare).2 = 0 ∧
        (pass gridDist 4 128 2 (0, 0) 0 crossedSquare).1.p = crossedSquare.p ∧
        tourLength gridDist 4 (pass gridDist 4 128 2 (0, 0) 0 crossedSquare).1.p = 4) :=
  ⟨by decide, by decide, rfl, by decide,
    crossedSquare_pass 128 2 (0, 0) 0 crossedSquare (by decide) (by decide) rfl (by decide)⟩

set_option maxRecDepth 100000

/-- C2 (failing input): 100 cities numbered by their index, a team of 98 workers, restart
199759, the slot `px[100]` still holding city 0 from the previous launch.  After the load
and the shuffle no position below 100 holds city 1, and city 0 sits at a second position. -/
theorem initTour_omits_city :
    (∀ k, k < 100 → initTour 100 98 199759 (fun i => i) (fun _ => 0) k ≠ 1) ∧
      ∃ k, k < 100 ∧ 0 < k ∧ initTour 100 98 199759 (fun i => i) (fun _ => 0) k = 0 := by
  decide

theorem loadTour_spec {α : Type} (cities dim : Nat) (pos mem : Nat → α) (hdim : 0 < dim)
    (k : Nat) : loadTour cities dim pos mem k = if k < cities then pos k else mem k := by
  obtain ⟨l, hnd, hmem, hfold⟩ := teamLoop_visit cities cities dim hdim (Nat.le_refl _)
  unfold loadTour
  rw [hfold]
  have h := foldl_slots (fun i (p : Nat → α) => Function.update p i (pos i))
    (fun p k => p k = mem k) (fun p k => p k = pos k)
    (fun s i k hki hQ => by simpa [Function.update_noteq hki] using hQ)
    (fun s i k hki hR => by simpa [Function.update_noteq hki] using hR)
    (fun s i _ => by simp) l hnd mem (fun _ => rfl) k
  by_cases hk : k < cities
  · rw [if_pos hk]
    exact h.1 ((hmem k).2 hk)
  · rw [if_neg hk]
    exact h.2 (fun hin => hk ((hmem k).1 hin))

/-- Reversing the positions `i + 1 .. j` of a tour permutes its positions below `n`. -/
theorem reverse_perm {α : Type} (n i j : Nat) (hj : j + 1 ≤ n) (p q : Nat → α)
    (hq : ∀ x, q x = if i + 1 ≤ x ∧ x ≤ j then p (j + i + 1 - x) else p x) :
    ((List.range n).map q).Perm ((List.range n).map p) := by
  have hqf : q = p ∘ (fun x => if i + 1 ≤ x ∧ x ≤ j then j + i + 1 - x else x) := by
    funext x
    rw [hq x]
    simp only [Function.comp]
    split <;> rfl
  rw [hqf, ← List.map_map]
  apply List.Perm.map
  have hnd : ((List.range n).map
      (fun x => if i + 1 ≤ x ∧ x ≤ j then j + i + 1 - x else x)).Nodup := by
    apply List.Nodup.map_on _ (List.nodup_range n)
    intro x _ y _ hxy
    simp only at hxy
    split at hxy <;> split at hxy <;> omega
  rw [List.perm_ext_iff_of_nodup hnd (List.nodup_range n)]
  intro a
  simp only [List.mem_map, List.mem_range]
  constructor
  · rintro ⟨x, hx, rfl⟩
    split <;> omega
  · intro ha
    by_cases hc : i + 1 ≤ a ∧ a ≤ j
    · exact ⟨j + i + 1 - a, by omega, by rw [if_pos (by omega)]; omega⟩
    · exact ⟨a, ha, by rw [if_neg hc]⟩

/-- Every pass, improving or not, of a team of at most `2 ^ 24` workers on at most `2 ^ 23`
cities keeps position 0 and the sentinel slot, and permutes the positions below `cities`. -/
theorem pass_keeps_tour {α : Type} (d : α → α → Int) (cities ts dim : Nat) (u : α) (w : Nat)
    (T : Team α) (hdim : 0 < dim) (hts : 0 < ts) (hdimB : dim ≤ 16777216)
    (hcB : cities ≤ 8388608) (hw : Winner d cities ts dim u T w) :
    (pass d cities ts dim u w T).1.p 0 = T.p 0 ∧
      (pass d cities ts dim u w T).1.p cities = T.p cities ∧
      ((List.range cities).map (pass d cities ts dim u w T).1.p).Perm
        ((List.range cities).map T.p) := by
  have hle : (pass d cities ts dim u w T).2 ≤ 0 := by
    rw [pass_minchange_code d cities ts dim u w T hdim hts, ← toFloat_zero]
    exact toFloat_mono _ _ (code_isMinchange d cities T.p).1
  rcases lt_or_eq_of_le hle with hneg | hz
  · obtain ⟨i, j, h1, h2, _, h4⟩ := pass_improving d cities ts dim u w T hdim hts hdimB hcB hw hneg
    refine ⟨?_, ?_, reverse_perm cities i j h2 T.p _ h4⟩
    · rw [h4 0, if_neg (by omega)]
    · rw [h4 cities, if_neg (by omega)]
  · have h := funext (pass_noop d cities ts dim u w T hdim hts hw hz)
    rw [h]
    exact ⟨rfl, rfl, List.Perm.refl _⟩

/-- Some worker of the team is always an admissible winner. -/
theorem exists_winner {α : Type} (d : α → α → Int) (cities ts dim : Nat) (u : α) (T : Team α)
    (hdim : 0 < dim) : ∃ w, Winner d cities ts dim u T w := by
  obtain ⟨_, l, hl, h⟩ := reduceMin_spec dim
    (fun lid => (localMin d cities ts dim u T lid).minchange) T.bufS hdim
  exact ⟨l, hl, h⟩

/-! ### The fuel of the loops is never exhausted -/

theorem strideLoop_fuel {σ : Type} (n dim : Nat) (hdim : 0 < dim) (body : Nat → σ → σ)
    (extra : Nat) :
    ∀ (fuel i : Nat) (s : σ), n ≤ i + fuel →
      strideLoop (fun i => decide (i < n)) dim body (fuel + extra) i s
        = strideLoop (fun i => decide (i < n)) dim body fuel i s := by
  intro fuel
  induction fuel with
  | zero =>
    intro i s h
    cases extra with
    | zero => rfl
    | succ e =>
      have : ¬ i < n := by omega
      simp [strideLoop, this]
  | succ m ih =>
    intro i s h
    rw [Nat.add_right_comm]
    simp only [strideLoop]
    split
    · exact ih _ _ (by omega)
    · rfl

theorem scanJ_fuel {α : Type} (d : α → α → Int) (t : Tile α) (bound lower : Int) (i : Nat)
    (extra : Nat) :
    ∀ (fuel : Nat) (jj : Int) (w : Worker α), jj + 1 ≤ lower + fuel →
      scanJ d t bound lower i (fuel + extra) jj w = scanJ d t bound lower i fuel jj w := by
  intro fuel
  induction fuel with
  | zero =>
    intro jj w h
    rw [scanJ_empty d t bound lower i _ jj w (by omega),
      scanJ_empty d t bound lower i _ jj w (by omega)]
  | succ m ih =>
    intro jj w h
    rw [Nat.add_right_comm]
    simp only [scanJ]
    split
    · exact ih _ _ (by omega)
    · rfl

theorem tileLoop_fuel {α : Type} (d : α → α → Int) (ts dim : Nat) (p : Nat → α)
    (buf : Nat → Int) (ii : Nat) (hts : 0 < ts) (extra : Nat) :
    ∀ (fuel : Nat) (jj : Int) (s : Tile α × (Nat → Worker α)), jj - ii - 1 ≤ fuel →
      tileLoop d ts dim p buf ii (fuel + extra) jj s = tileLoop d ts dim p buf ii fuel jj s := by
  intro fuel
  induction fuel with
  | zero =>
    intro jj s h
    cases extra with
    | zero => rfl
    | succ e =>
      have : ¬ (ii : Int) + 2 ≤ jj := by omega
      simp [tileLoop, this]
  | succ m ih =>
    intro jj s h
    rw [Nat.add_right_comm]
    simp only [tileLoop]
    split
    · exact ih _ _ (by push_cast at h ⊢; omega)
    · rfl

theorem reduceLoop_fuel (dim extra : Nat) :
    ∀ (fuel j : Nat) (r : Red), 0 < j → j ≤ fuel →
      reduceLoop dim (fuel + extra) j r = reduceLoop dim fuel j r := by
  intro fuel
  induction fuel with
  | zero => intro j r h0 h; omega
  | succ m ih =>
    intro j r h0 h
    rw [Nat.add_right_comm]
    simp only [reduceLoop]
    split
    · exact ih _ _ (by omega) (by omega)
    · rfl

theorem shuffleLoop_fuel {α : Type} (cities extra : Nat) :
    ∀ (fuel i seed : Nat) (p : Nat → α), cities ≤ i + fuel →
      shuffleLoop cities (fuel + extra) i seed p = shuffleLoop cities fuel i seed p := by
  intro fuel
  induction fuel with
  | zero =>
    intro i seed p h
    cases extra with
    | zero => rfl
    | succ e =>
      have : ¬ i < cities := by omega
      simp [shuffleLoop, this]
  | succ m ih =>
    intro i seed p h
    rw [Nat.add_right_comm]
    simp only [shuffleLoop]
    split
    · exact ih _ _ _ (by omega)
    · rfl

theorem swap_perm {α : Type} (n i j : Nat) (hi : i < n) (hj : j < n) (p : Nat → α) :
    ((List.range n).map (swap p i j)).Perm ((List.range n).map p) := by
  have hqf : swap p i j = p ∘ (fun x => if x = j then i else if x = i then j else x) := by
    funext x
    rw [swap_apply]
    simp only [Function.comp]
    split
    · rfl
    · split <;> rfl
  rw [hqf, ← List.map_map]
  apply List.Perm.map
  have hnd : ((List.range n).map
      (fun x => if x = j then i else if x = i then j else x)).Nodup := by
    apply List.Nodup.map_on _ (List.nodup_range n)
    intro x _ y _ hxy
    simp only at hxy
    split at hxy <;> split at hxy <;> (try split at hxy) <;> (try split at hxy) <;> omega
  rw [List.perm_ext_iff_of_nodup hnd (List.nodup_range n)]
  intro a
  simp only [List.mem_map, List.mem_range]
  constructor
  · rintro ⟨x, hx, rfl⟩
    split
    · exact hi
    · split
      · exact hj
      · exact hx
  · intro ha
    by_cases h1 : a = i
    · exact ⟨j, hj, by simp [h1]⟩
    · by_cases h2 : a = j
      · refine ⟨i, hi, ?_⟩
        by_cases h3 : i = j
        · simp [h3, h2]
        · simp [h3, h2]
      · exact ⟨a, ha, by simp [h1, h2]⟩

theorem shuffleIndex_pos (cities vnum : Nat) : 1 ≤ shuffleIndex cities vnum := by
  unfold shuffleIndex
  omega

theorem shuffleLoop_perm {α : Type} (cities : Nat) :
    ∀ (fuel i seed : Nat) (p : Nat → α), 1 ≤ i → goodDraws cities fuel i seed = true →
      ((List.range cities).map (shuffleLoop cities fuel i seed p)).Perm
          ((List.range cities).map p) ∧
        shuffleLoop cities fuel i seed p 0 = p 0 := by
  intro fuel
  induction fuel with
  | zero => intro i seed p _ _; exact ⟨List.Perm.refl _, rfl⟩
  | succ n ih =>
    intro i seed p hi hg
    simp only [shuffleLoop]
    simp only [goodDraws] at hg
    by_cases hc : i < cities
    · simp only [hc, if_true, Bool.and_eq_true, decide_eq_true_eq] at hg ⊢
      obtain ⟨h1, h2⟩ := ih (i + 1) (LCG_random seed).2
        (swap p i (shuffleIndex cities (LCG_random seed).1)) (by omega) hg.2
      refine ⟨h1.trans (swap_perm cities i _ hc hg.1 p), ?_⟩
      rw [h2, swap_apply]
      have := shuffleIndex_pos cities (LCG_random seed).1
      rw [if_neg (by omega), if_neg (by omega)]
    · rw [if_neg hc]
      exact ⟨List.Perm.refl _, rfl⟩

/-- When no draw of the restart returns `1.0`, that is when every shuffle index is below
`cities`, the load and the shuffle leave a permutation of the input cities at the
positions below `cities`, with the sentinel equal to position 0. -/
theorem initTour_valid_of_goodDraws {α : Type} (cities dim bid : Nat) (pos mem : Nat → α)
    (hdim : 0 < dim) (hg : goodDraws cities cities 1 bid = true) :
    ((List.range cities).map (initTour cities dim bid pos mem)).Perm
        ((List.range cities).map pos) ∧
      initTour cities dim bid pos mem cities = initTour cities dim bid pos mem 0 := by
  obtain ⟨h1, _⟩ := shuffleLoop_perm cities cities 1 bid (loadTour cities dim pos mem)
    (Nat.le_refl _) hg
  have hload : (List.range cities).map (loadTour cities dim pos mem)
      = (List.range cities).map pos := by
    apply List.map_congr_left
    intro k hk
    rw [loadTour_spec cities dim pos mem hdim k, if_pos (List.mem_range.1 hk)]
  have hupd : (List.range cities).map (initTour cities dim bid pos mem)
      = (List.range cities).map (shuffleLoop cities cities 1 bid (loadTour cities dim pos mem)) := by
    apply List.map_congr_left
    intro k hk
    have : k ≠ cities := by have := List.mem_range.1 hk; omega
    simp only [initTour, shuffle, Function.update_noteq this]
  rw [hupd, ← hload]
  refine ⟨h1, ?_⟩
  simp only [initTour, shuffle, Function.update_same]
  by_cases h0 : cities = 0
  · subst h0; simp
  · rw [Function.update_noteq (fun h => h0 h.symm)]

set_option maxRecDepth 100000

/-- The draws of restart 0 with 100 cities are all below 100, those of restart 199759
are not. -/
theorem goodDraws_restart_0 :
    goodDraws 100 100 1 0 = true ∧ goodDraws 100 100 1 199759 = false := by
  decide

/-- The published move is applied as a reversal when the team has at most `2 ^ 24` workers
and `j < 2 ^ 23`: then the ids, the slots 2 and 3 and their float sum are exact. -/
theorem publish_move {α : Type} (dim : Nat) (ws : Nat → Worker α) (w : Nat) (bufS : Nat → Int)
    (p : Nat → α) (i j : Nat) (hdim : 0 < dim) (hw : w < dim) (hdimB : dim ≤ 16777216)
    (hij : i < j) (hjB : j < 8388608) (hi : (ws w).mini = (i : Int))
    (hj : (ws w).minj = (j : Int)) (x : Nat) :
    applyMove dim (publish dim ws w bufS) p x
      = if i + 1 ≤ x ∧ x ≤ j then p (j + i + 1 - x) else p x := by
  obtain ⟨p2, p3⟩ := publish_spec dim ws w bufS hw hdimB
  rw [hi, toFloat_exact _ (by omega) (by omega)] at p2
  rw [hj, toFloat_exact _ (by omega) (by omega)] at p3
  rw [applyMove_spec dim (publish dim ws w bufS) p (i + 1) (j + i + 1) hdim
    (by rw [p2]; push_cast; ring)
    (by
      rw [p2, p3, toFloat_exact ((i : Int) + 1) (by omega) (by omega),
        toFloat_exact ((j : Int) + ((i : Int) + 1)) (by omega) (by omega)]
      push_cast
      ring) x]
  apply if_congr _ rfl rfl
  constructor <;> rintro ⟨a, b⟩ <;> exact ⟨a, by omega⟩

/-- C11 (failing input): a tour of at least 8388611 cities, the team of 128 workers, the
winner publishing the move `i = 8388608`, `j = 8388610` (`mini = i + 1 = 8388609`).  The
slots 2 and 3 hold `8388609` and `8388610`, but `sum = buf_s[3] + mini` is a float addition
and `16777219` rounds to `16777220`: the loop exchanges the positions `8388609` and
`8388611` and leaves `8388610`, instead of exchanging `8388609` and `8388610`; position
`8388611 = j + 1`, which is the sentinel when `N = 8388611`, is overwritten. -/
theorem applyMove_rounds_sum :
    publish 128 farMove 0 (fun _ => 0) 2 = 8388609 ∧
      publish 128 farMove 0 (fun _ => 0) 3 = 8388610 ∧
      applyMove 128 (publish 128 farMove 0 (fun _ => 0)) (fun k => k) 8388609 = 8388611 ∧
      applyMove 128 (publish 128 farMove 0 (fun _ => 0)) (fun k => k) 8388610 = 8388610 ∧
      applyMove 128 (publish 128 farMove 0 (fun _ => 0)) (fun k => k) 8388611 = 8388609 := by
  obtain ⟨p2, p3⟩ := publish_spec 128 farMove 0 (fun _ => 0) (by decide) (by decide)
  have e2 : toFloat ((farMove 0).mini + 1) = ((8388609 : Nat) : Int) := by decide
  have e3 : toFloat (farMove 0).minj = 8388610 := by decide
  rw [e2] at p2
  rw [e3] at p3
  have h := applyMove_spec 128 (publish 128 farMove 0 (fun _ => 0)) (fun k => k) 8388609
    16777220 (by decide) p2 (by rw [p2, p3]; decide)
  refine ⟨p2, p3, ?_, ?_, ?_⟩
  · rw [h 8388609]
    decide
  · rw [h 8388610]
    decide
  · rw [h 8388611]
    decide

/-! ### A tour on which the float buffers mislead the search -/

theorem farDist_comm (a b : Int × Int) : farDist a b = farDist b a := by
  unfold farDist
  by_cases h : a.1 = b.1
  · rw [if_pos h, if_pos h.symm]
    congr 1
    omega
  · rw [if_neg h, if_neg (fun e => h e.symm)]

theorem farDist_line (a b : Int) : farDist (0, a) (0, b) = ((a - b).natAbs : Int) := by
  simp [farDist]

theorem farTour_line (k : Nat) (h4 : 4 ≤ k) (h100 : k ≤ 100) :
    farTour k = (0, 100 - (k : Int)) := by
  unfold farTour
  rw [if_neg (by omega), if_neg (by omega), if_neg (by omega), if_neg (by omega)]
  split
  · rfl
  · have : k = 100 := by omega
    subst this
    rfl

theorem farTour2_line (k : Nat) (h4 : 4 ≤ k) (h100 : k ≤ 100) :
    farTour2 k = (0, 100 - (k : Int)) := by
  unfold farTour2
  rw [if_neg (by omega), if_neg (by omega)]
  exact farTour_line k h4 h100

/-- On a part of the tour that runs down the line `x = 0`, one unit a position, the computed
change of an exchange is exact and positive. -/
theorem far_tail (p : Nat → Int × Int) (a : Nat)
    (hline : ∀ k, a ≤ k → k ≤ 100 → p k = (0, 100 - (k : Int))) (i j : Nat) (hi : a ≤ i)
    (hij : i + 2 ≤ j) (hj : j + 1 ≤ 100) :
    codeDelta farDist p i j = 2 * ((j : Int) - i) - 2 ∧
      delta farDist p i j = 2 * ((j : Int) - i) - 2 := by
  have e1 : farDist (p j) (p (j + 1)) = 1 := by
    rw [hline j (by omega) (by omega), hline (j + 1) (by omega) (by omega), farDist_line]
    omega
  have e2 : farDist (p i) (p j) = (j : Int) - i := by
    rw [hline j (by omega) (by omega), hline i (by omega) (by omega), farDist_line]
    omega
  have e3 : farDist (p (i + 1)) (p (j + 1)) = (j : Int) - i := by
    rw [hline (j + 1) (by omega) (by omega), hline (i + 1) (by omega) (by omega), farDist_line]
    omega
  have e4 : farDist (p i) (p (i + 1)) = 1 := by
    rw [hline i (by omega) (by omega), hline (i + 1) (by omega) (by omega), farDist_line]
    omega
  unfold codeDelta delta
  rw [e1, e2, e3, e4, toFloat_exact (-1) (by omega) (by omega),
    toFloat_exact ((j : Int) - i) (by omega) (by omega),
    toFloat_exact (-1 + ((j : Int) - i)) (by omega) (by omega),
    toFloat_exact (-1 + ((j : Int) - i) + ((j : Int) - i)) (by omega) (by omega)]
  constructor <;> ring

theorem far_min (p : Nat → Int × Int)
    (hline : ∀ k, 4 ≤ k → k ≤ 100 → p k = (0, 100 - (k : Int)))
    (hhead : ∀ i, i < 4 → ∀ j, j < 100 → i + 2 ≤ j →
      (i = 0 ∧ j = 2) ∨ -2 < codeDelta farDist p i j)
    (h02 : codeDelta farDist p 0 2 = -2) :
    codeMinchange farDist 100 p = -2 ∧
      ∀ i j, i + 2 ≤ j → j + 1 ≤ 100 → toFloat (codeDelta farDist p i j) = -2 →
        i = 0 ∧ j = 2 := by
  have hall : ∀ i j, i + 2 ≤ j → j + 1 ≤ 100 →
      (i = 0 ∧ j = 2) ∨ -2 < codeDelta farDist p i j := by
    intro i j hij hj
    by_cases hi : i < 4
    · exact hhead i hi j (by omega) hij
    · have := (far_tail p 4 hline i j (by omega) hij hj).1
      exact Or.inr (by omega)
  constructor
  · refine IsMinchange_unique (codeDelta farDist p) 100 _ _ (code_isMinchange farDist 100 p)
      ⟨by decide, ?_, Or.inr ⟨0, 2, by decide, by decide, h02⟩⟩
    intro i j hij hj
    rcases hall i j hij hj with ⟨rfl, rfl⟩ | h
    · rw [h02]
    · omega
  · intro i j hij hj he
    rcases hall i j hij hj with h | h
    · exact h
    · have h1 := toFloat_mono (-1) (codeDelta farDist p i j) (by omega)
      have h2 : toFloat (-1) = -1 := by decide
      omega

theorem farTour_head : ∀ i, i < 4 → ∀ j, j < 100 → i + 2 ≤ j →
    (i = 0 ∧ j = 2) ∨ -2 < codeDelta farDist farTour i j := by
  decide!

theorem farTour2_head : ∀ i, i < 4 → ∀ j, j < 100 → i + 2 ≤ j →
    (i = 0 ∧ j = 2) ∨ -2 < codeDelta farDist farTour2 i j := by
  decide!

theorem farTour_naive : naiveMinchange farDist 100 farTour = -1 := by
  have hhead : ∀ i, i < 4 → ∀ j, j < 100 → i + 2 ≤ j → -1 ≤ delta farDist farTour i j := by
    decide!
  refine IsMinchange_unique (delta farDist farTour) 100 _ _ (naive_isMinchange farDist 100 farTour)
    ⟨by decide, ?_, Or.inr ⟨1, 3, by decide, by decide, by decide⟩⟩
  intro i j hij hj
  by_cases hi : i < 4
  · exact hhead i hi j (by omega) hij
  · have := (far_tail farTour 4 farTour_line i j (by omega) hij hj).2
    omega

theorem far_step (p : Nat → Int × Int)
    (hline : ∀ k, 4 ≤ k → k ≤ 100 → p k = (0, 100 - (k : Int)))
    (hhead : ∀ i, i < 4 → ∀ j, j < 100 → i + 2 ≤ j →
      (i = 0 ∧ j = 2) ∨ -2 < codeDelta farDist p i j)
    (h02 : codeDelta farDist p 0 2 = -2) (u : Int × Int) (T : Team (Int × Int)) (hT : T.p = p) :
    Winner farDist 100 128 98 u T 0 ∧
      ∀ w, Winner farDist 100 128 98 u T w →
        (pass farDist 100 128 98 u w T).2 = -2 ∧
        ∀ x, (pass farDist 100 128 98 u w T).1.p x
          = if x = 1 then p 2 else if x = 2 then p 1 else p x := by
  obtain ⟨hmin, huniq⟩ := far_min p hline hhead h02
  have hval : ∀ w, (pass farDist 100 128 98 u w T).2 = -2 := by
    intro w
    rw [pass_minchange_code farDist 100 128 98 u w T (by decide) (by decide), hT, hmin]
    decide
  constructor
  · exact winner_of_attains farDist 100 128 98 u T (by decide) (by decide) 0 2 (by decide)
      (by decide) (by rw [hT, h02, hmin])
  · intro w hw
    refine ⟨hval w, fun x => ?_⟩
    obtain ⟨i, j, hij, hj, he, hp⟩ := pass_improving farDist 100 128 98 u w T (by decide)
      (by decide) (by decide) (by decide) hw (by rw [hval w]; decide)
    rw [hval w, hT] at he
    obtain ⟨rfl, rfl⟩ := huniq i j hij hj he
    rw [hp x, hT]
    by_cases h1 : x = 1
    · subst h1
      simp
    · by_cases h2 : x = 2
      · subst h2
        simp
      · rw [if_neg h1, if_neg h2, if_neg (by omega)]

/-- On `farTour` every pass, whatever the scratch memory holds and whoever wins, reports
`minchange = -2` and exchanges the positions 1 and 2. -/
theorem farTour_step (u : Int × Int) (T : Team (Int × Int)) (hT : T.p = farTour) :
    Winner farDist 100 128 98 u T 0 ∧
      ∀ w, Winner farDist 100 128 98 u T w →
        (pass farDist 100 128 98 u w T).2 = -2 ∧
          (pass farDist 100 128 98 u w T).1.p = farTour2 := by
  obtain ⟨h0, h⟩ := far_step farTour farTour_line farTour_head (by decide) u T hT
  refine ⟨h0, fun w hw => ⟨(h w hw).1, funext fun x => ?_⟩⟩
  rw [(h w hw).2 x]
  rfl

/-- On `farTour2` every pass reports `minchange = -2` and exchanges the positions 1 and 2
back. -/
theorem farTour2_step (u : Int × Int) (T : Team (Int × Int)) (hT : T.p = farTour2) :
    Winner farDist 100 128 98 u T 0 ∧
      ∀ w, Winner farDist 100 128 98 u T w →
        (pass farDist 100 128 98 u w T).2 = -2 ∧
          (pass farDist 100 128 98 u w T).1.p = farTour := by
  obtain ⟨h0, h⟩ := far_step farTour2 farTour2_line farTour2_head (by decide) u T hT
  refine ⟨h0, fun w hw => ⟨(h w hw).1, funext fun x => ?_⟩⟩
  rw [(h w hw).2 x]
  unfold farTour2
  by_cases h1 : x = 1
  · subst h1
    rfl
  · by_cases h2 : x = 2
    · subst h2
      rfl
    · rw [if_neg h1, if_neg h2, if_neg h1, if_neg h2]

theorem far_not_wellFounded (u : Int × Int) :
    ¬ WellFounded (Improves farDist 100 128 98 u) := by
  intro hwf
  obtain ⟨T, hT, hminT⟩ := hwf.has_min
    {T : Team (Int × Int) | T.p = farTour ∨ T.p = farTour2} ⟨farTeam, Or.inl rfl⟩
  rcases hT with h | h
  · obtain ⟨h0, hs⟩ := farTour_step u T h
    refine hminT (pass farDist 100 128 98 u 0 T).1 (Or.inr (hs 0 h0).2) ⟨0, h0, ?_, rfl⟩
    rw [(hs 0 h0).1]
    decide
  · obtain ⟨h0, hs⟩ := farTour2_step u T h
    refine hminT (pass farDist 100 128 98 u 0 T).1 (Or.inl (hs 0 h0).2) ⟨0, h0, ?_, rfl⟩
    rw [(hs 0 h0).1]
    decide

theorem farTour_length :
    tourLength farDist 100 farTour = 33554535 ∧ tourLength farDist 100 farTour2 = 33554535 := by
  decide!

/-- C1 (failing input): on the 100-city tour `farTour`, with the team of 98 workers that
`best_thread_count` gives and tiles of 128, the pass reports `minchange = -2`, while the
naive double loop over the exact changes `d(i,j) + d(i+1,j+1) - d(i,i+1) - d(j,j+1)` gives
`-1`.  The exchange `(0, 2)` has the exact change 0; the scan computes
`-1 + 16777218 + 1` in float, where `16777217` rounds to `16777216` twice. -/
theorem farTour_minchange_differs :
    (pass farDist 100 128 98 (0, 0) 0 farTeam).2 = -2 ∧
      naiveMinchange farDist 100 farTeam.p = -1 ∧ delta farDist farTeam.p 0 2 = 0 ∧
      codeDelta farDist farTeam.p 0 2 = -2 :=
  ⟨((farTour_step (0, 0) farTeam rfl).2 0 (farTour_step (0, 0) farTeam rfl).1).1,
    farTour_naive, by decide, by decide⟩

/-- C3 (failing input): on `farTour`, worker 0 is an admissible winner, the reduced
`minchange` is `-2`, and the tour after the applied reversal is as long as before,
33554535: neither the length before plus `minchange` nor strictly smaller. -/
theorem farTour_length_stays :
    Winner farDist 100 128 98 (0, 0) farTeam 0 ∧
      (pass farDist 100 128 98 (0, 0) 0 farTeam).2 = -2 ∧
      tourLength farDist 100 farTeam.p = 33554535 ∧
      tourLength farDist 100 (pass farDist 100 128 98 (0, 0) 0 farTeam).1.p = 33554535 := by
  obtain ⟨h0, hs⟩ := farTour_step (0, 0) farTeam rfl
  refine ⟨h0, (hs 0 h0).1, farTour_length.1, ?_⟩
  rw [(hs 0 h0).2]
  exact farTour_length.2

/-- C5 (failing input): started on `farTour`, the local search never ends.  The first pass
reports `minchange = -2` and yields `farTour2`, the pass after it reports `-2` again and
yields `farTour`, whatever the scratch memory holds and whoever wins; so the relation
between the team memories after and before an improving pass is not well founded. -/
theorem farTour_search_cycles :
    (pass farDist 100 128 98 (0, 0) 0 farTeam).2 < 0 ∧
      (pass farDist 100 128 98 (0, 0) 0 farTeam).1.p = farTour2 ∧
      (pass farDist 100 128 98 (0, 0) 0 (pass farDist 100 128 98 (0, 0) 0 farTeam).1).2 < 0 ∧
      (pass farDist 100 128 98 (0, 0) 0 (pass farDist 100 128 98 (0, 0) 0 farTeam).1).1.p
        = farTeam.p ∧
      ¬ WellFounded (Improves farDist 100 128 98 (0, 0)) := by
  obtain ⟨h0, hs⟩ := farTour_step (0, 0) farTeam rfl
  obtain ⟨g0, gs⟩ := farTour2_step (0, 0) (pass farDist 100 128 98 (0, 0) 0 farTeam).1
    (hs 0 h0).2
  refine ⟨?_, (hs 0 h0).2, ?_, (gs 0 g0).2, far_not_wellFounded (0, 0)⟩
  · rw [(hs 0 h0).1]
    decide
  · rw [(gs 0 g0).1]
    decide

/-! ### Below the rounding threshold the length sum is exact -/

theorem forWorkers_write (dim : Nat) (c : Nat → Prop) [DecidablePred c] (v : Nat → Int)
    (b0 : Nat → Int) (x : Nat) :
    forWorkers dim (fun lid b => if c lid then Function.update b lid (v lid) else b) b0 x
      = if x < dim ∧ c x then v x else b0 x := by
  have h := forWorkers_induct
    (fun n (b : Nat → Int) => b x = if x < n ∧ c x then v x else b0 x) dim
    (fun lid b => if c lid then Function.update b lid (v lid) else b) b0 (by simp)
    (by
      intro n b _ ih
      dsimp only
      by_cases hx : x = n
      · subst hx
        by_cases hc : c x
        · simp [hc]
        · simp only [hc, if_false, and_false]
          simpa [hc] using ih
      · have e : (if c n then Function.update b n (v n) else b) x = b x := by
          split
          · exact Function.update_noteq hx _ _
          · rfl
        rw [e, ih]
        apply if_congr _ rfl rfl
        constructor <;> rintro ⟨a, b⟩ <;> exact ⟨by omega, b⟩)
  exact h

theorem strideLoop_add (cond : Nat → Bool) (dim : Nat) (e : Nat → Int) :
    ∀ (fuel i : Nat) (s : Int),
      strideLoop cond dim (fun i t => t + e i) fuel i s
        = s + strideLoop cond dim (fun i t => t + e i) fuel i 0 := by
  intro fuel
  induction fuel with
  | zero => intro i s; simp [strideLoop]
  | succ n ih =>
    intro i s
    simp only [strideLoop]
    split
    · rw [ih (i + dim) (s + e i), ih (i + dim) (0 + e i)]
      ring
    · simp

theorem foldl_add_eq_sum (e : Nat → Int) (l : List Nat) (s : Int) :
    l.foldl (fun t i => t + e i) s = s + (l.map e).sum := by
  induction l generalizing s with
  | nil => simp
  | cons a l ih =>
    simp only [List.foldl_cons, List.map_cons, List.sum_cons]
    rw [ih]
    ring

theorem sum_fold_halves (b : Nat → Int) (k m : Nat) (hm : m ≤ k) :
    ∑ l ∈ Finset.range k, (b l + if l < m then b (l + k) else 0)
      = ∑ l ∈ Finset.range (k + m), b l := by
  rw [Finset.sum_add_distrib, Finset.sum_range_add]
  congr 1
  obtain ⟨c, rfl⟩ := Nat.exists_eq_add_of_le hm
  rw [Finset.sum_range_add]
  have hz : ∑ x ∈ Finset.range c, (if m + x < m then b (m + x + (m + c)) else 0) = 0 := by
    apply Finset.sum_eq_zero
    intro x _
    rw [if_neg (by omega)]
  rw [hz, add_zero]
  apply Finset.sum_congr rfl
  intro x hx
  rw [if_pos (Finset.mem_range.1 hx), Nat.add_comm]

theorem wrapInt_exact (x : Int) (h0 : -2147483648 ≤ x) (h1 : x < 2147483648) :
    wrapInt x = x := by
  unfold wrapInt
  omega

theorem foldl_wrap (e : Nat → Int) (l : List Nat) (s : Int) (hs : 0 ≤ s)
    (he : ∀ i ∈ l, 0 ≤ e i) (hb : s + (l.map e).sum < 2147483648) :
    l.foldl (fun t i => wrapInt (t + e i)) s = l.foldl (fun t i => t + e i) s := by
  induction l generalizing s with
  | nil => rfl
  | cons a l ih =>
    have ha : 0 ≤ e a := he a (List.mem_cons_self a l)
    have hl : 0 ≤ (l.map e).sum :=
      List.sum_nonneg (fun x hx => by
        obtain ⟨i, hi, rfl⟩ := List.mem_map.1 hx
        exact he i (List.mem_cons_of_mem a hi))
    simp only [List.map_cons, List.sum_cons] at hb
    simp only [List.foldl_cons]
    rw [wrapInt_exact (s + e a) (by omega) (by omega)]
    exact ih (s + e a) (by omega) (fun i hi => he i (List.mem_cons_of_mem a hi)) (by omega)

/-- The partial lengths without wraparound add up to the cyclic tour length. -/
theorem sum_exactTerm {α : Type} (d : α → α → Int) (cities dim : Nat) (p : Nat → α)
    (hdim : 0 < dim) :
    ∑ l ∈ Finset.range dim, strideLoop (fun i => decide (i < cities)) dim
        (fun i (t : Int) => t + d (p i) (p (i + 1))) cities l 0
      = tourLength d cities p := by
  obtain ⟨l, hnd, hmem, hfold⟩ := teamLoop_visit cities cities dim hdim (Nat.le_refl _)
  have h1 : teamLoop (fun i => decide (i < cities)) cities dim
      (fun i (t : Int) => t + d (p i) (p (i + 1))) 0
      = ∑ l ∈ Finset.range dim, strideLoop (fun i => decide (i < cities)) dim
        (fun i (t : Int) => t + d (p i) (p (i + 1))) cities l 0 := by
    unfold teamLoop
    exact forWorkers_induct
      (fun n (s : Int) => s = ∑ l ∈ Finset.range n, strideLoop (fun i => decide (i < cities)) dim
        (fun i (t : Int) => t + d (p i) (p (i + 1))) cities l 0) dim
      (fun lid s => strideLoop (fun i => decide (i < cities)) dim
        (fun i (t : Int) => t + d (p i) (p (i + 1))) cities lid s) 0 (by simp)
      (by
        intro n s _ ih
        dsimp only
        rw [strideLoop_add, Finset.sum_range_succ, ih])
  rw [← h1, hfold, foldl_add_eq_sum, zero_add]
  unfold tourLength
  apply List.Perm.sum_eq
  apply List.Perm.map
  rw [List.perm_ext_iff_of_nodup hnd (List.nodup_range cities)]
  intro a
  rw [hmem a, List.mem_range]

theorem exactTerm_nonneg {α : Type} (d : α → α → Int) (cities dim : Nat) (p : Nat → α)
    (hnonneg : ∀ a b, 0 ≤ d a b) (lid : Nat) :
    0 ≤ strideLoop (fun i => decide (i < cities)) dim
      (fun i (t : Int) => t + d (p i) (p (i + 1))) cities lid 0 := by
  rw [strideLoop_eq_foldl, foldl_add_eq_sum, zero_add]
  exact List.sum_nonneg (fun x hx => by
    obtain ⟨i, _, rfl⟩ := List.mem_map.1 hx
    exact hnonneg _ _)

/-- While the tour length is below `2 ^ 31` the register `term` does not wrap. -/
theorem partialTerm_exact {α : Type} (d : α → α → Int) (cities dim : Nat) (p : Nat → α)
    (hnonneg : ∀ a b, 0 ≤ d a b) (hdim : 0 < dim) (lid : Nat) (hlid : lid < dim)
    (hlen : tourLength d cities p < 2147483648) :
    partialTerm d cities dim p lid
      = strideLoop (fun i => decide (i < cities)) dim
        (fun i (t : Int) => t + d (p i) (p (i + 1))) cities lid 0 := by
  have hle : strideLoop (fun i => decide (i < cities)) dim
      (fun i (t : Int) => t + d (p i) (p (i + 1))) cities lid 0 ≤ tourLength d cities p := by
    rw [← sum_exactTerm d cities dim p hdim]
    exact Finset.single_le_sum
      (f := fun l => strideLoop (fun i => decide (i < cities)) dim
        (fun i (t : Int) => t + d (p i) (p (i + 1))) cities l 0)
      (fun l _ => exactTerm_nonneg d cities dim p hnonneg l) (Finset.mem_range.2 hlid)
  unfold partialTerm
  rw [strideLoop_eq_foldl, strideLoop_eq_foldl]
  rw [strideLoop_eq_foldl, foldl_add_eq_sum, zero_add] at hle
  exact foldl_wrap (fun i => d (p i) (p (i + 1))) _ 0 (le_refl _) (fun i _ => hnonneg _ _)
    (by omega)

theorem sumRound_bufS (dim j k : Nat) (r : SumRed) (x : Nat) :
    (sumRound dim j k r).bufS x
      = if x < dim ∧ x + k < j then
          toFloat (wrapInt (toFloat (toFloat (r.term x) + r.bufS (x + k))))
        else r.bufS x := by
  unfold sumRound
  simp only
  rw [forWorkers_write dim (fun lid => lid + k < j)
    (fun lid => toFloat (wrapInt (toFloat (toFloat (r.term lid) + r.bufS (lid + k)))))
    r.bufS x]

theorem pair_le_sum (f : Nat → Int) (j a b : Nat) (ha : a < j) (hb : b < j) (hab : a ≠ b)
    (hf : ∀ l, l < j → 0 ≤ f l) : f a + f b ≤ ∑ l ∈ Finset.range j, f l := by
  have hsub : ({a, b} : Finset Nat) ⊆ Finset.range j := by
    intro x hx
    rcases Finset.mem_insert.1 hx with h | h
    · exact Finset.mem_range.2 (by omega)
    · rw [Finset.mem_singleton.1 h]
      exact Finset.mem_range.2 hb
  have h := Finset.sum_le_sum_of_subset_of_nonneg hsub
    (fun l hl _ => hf l (Finset.mem_range.1 hl))
  rw [Finset.sum_pair hab] at h
  exact h

theorem sumRound_sum (dim j : Nat) (r : SumRed) (S : Int) (hj : j ≤ dim) (hj0 : 0 < j)
    (hS : S < 16777216) (hagree : ∀ l, l < j → r.term l = r.bufS l)
    (hpos : ∀ l, l < j → 0 ≤ r.bufS l) (hsum : ∑ l ∈ Finset.range j, r.bufS l = S) :
    (∀ l, l < (j + 1) / 2 → (sumRound dim j ((j + 1) / 2) r).term l
        = (sumRound dim j ((j + 1) / 2) r).bufS l) ∧
      (∀ l, l < (j + 1) / 2 → 0 ≤ (sumRound dim j ((j + 1) / 2) r).bufS l) ∧
      ∑ l ∈ Finset.range ((j + 1) / 2), (sumRound dim j ((j + 1) / 2) r).bufS l = S := by
  have hone : ∀ l, l < j → r.bufS l ≤ S := by
    intro l hl
    rw [← hsum]
    exact Finset.single_le_sum (f := fun l => r.bufS l)
      (fun i hi => hpos i (Finset.mem_range.1 hi)) (Finset.mem_range.2 hl)
  have hstep : ∀ l, l + (j + 1) / 2 < j →
      wrapInt (toFloat (toFloat (r.term l) + r.bufS (l + (j + 1) / 2)))
        = r.bufS l + r.bufS (l + (j + 1) / 2) := by
    intro l hl
    have h1 := hpos l (by omega)
    have h2 := hpos (l + (j + 1) / 2) hl
    have h3 := hone l (by omega)
    have h4 := pair_le_sum r.bufS j l (l + (j + 1) / 2) (by omega) hl (by omega) hpos
    rw [hsum] at h4
    rw [hagree l (by omega), toFloat_exact (r.bufS l) (by omega) (by omega),
      toFloat_exact (r.bufS l + r.bufS (l + (j + 1) / 2)) (by omega) (by omega),
      wrapInt_exact _ (by omega) (by omega)]
  have hb : ∀ l, l < (j + 1) / 2 → (sumRound dim j ((j + 1) / 2) r).bufS l
      = r.bufS l + if l < j - (j + 1) / 2 then r.bufS (l + (j + 1) / 2) else 0 := by
    intro l hl
    rw [sumRound_bufS]
    by_cases h : l + (j + 1) / 2 < j
    · have h2 := hpos (l + (j + 1) / 2) h
      have h1 := hpos l (by omega)
      have h4 := pair_le_sum r.bufS j l (l + (j + 1) / 2) (by omega) h (by omega) hpos
      rw [hsum] at h4
      rw [if_pos ⟨by omega, h⟩, if_pos (by omega), hstep l h,
        toFloat_exact _ (by omega) (by omega)]
    · rw [if_neg (fun hh => h hh.2), if_neg (by omega), add_zero]
  refine ⟨?_, ?_, ?_⟩
  · intro l hl
    rw [sumRound_bufS]
    show (if l + (j + 1) / 2 < j then
        wrapInt (toFloat (toFloat (r.term l) + r.bufS (l + (j + 1) / 2)))
      else r.term l) = _
    by_cases h : l + (j + 1) / 2 < j
    · have h2 := hpos (l + (j + 1) / 2) h
      have h1 := hpos l (by omega)
      have h4 := pair_le_sum r.bufS j l (l + (j + 1) / 2) (by omega) h (by omega) hpos
      rw [hsum] at h4
      rw [if_pos h, if_pos ⟨by omega, h⟩, hstep l h, toFloat_exact _ (by omega) (by omega)]
    · rw [if_neg h, if_neg (fun hh => h hh.2)]
      exact hagree l (by omega)
  · intro l hl
    rw [hb l hl]
    have h1 := hpos l (by omega)
    split
    · have h2 := hpos (l + (j + 1) / 2) (by omega)
      omega
    · omega
  · rw [Finset.sum_congr rfl (fun l hl => hb l (Finset.mem_range.1 hl)),
      sum_fold_halves r.bufS ((j + 1) / 2) (j - (j + 1) / 2) (by omega), ← hsum]
    congr 2
    omega

theorem sumLoop_spec (dim : Nat) (S : Int) (hS : S < 16777216) :
    ∀ (fuel j : Nat) (r : SumRed), j ≤ dim → 0 < j → j ≤ fuel →
      (∀ l, l < j → r.term l = r.bufS l) → (∀ l, l < j → 0 ≤ r.bufS l) →
      ∑ l ∈ Finset.range j, r.bufS l = S → (sumLoop dim fuel j r).term 0 = S := by
  intro fuel
  induction fuel with
  | zero => intro j r _ h0 hf; omega
  | succ n ih =>
    intro j r hj hj0 hf hagree hpos hsum
    obtain ⟨ha, hp, hs⟩ := sumRound_sum dim j r S hj hj0 hS hagree hpos hsum
    simp only [sumLoop]
    split
    · exact ih _ _ (by omega) (by omega) (by omega) ha hp hs
    · have h1 : (j + 1) / 2 = 1 := by omega
      rw [h1] at hs ha ⊢
      rw [ha 0 (by omega), ← hs]
      simp

/-- Below the rounding threshold the sum reduction is exact: for non-negative local values
whose sum is below `2 ^ 24`, worker 0 ends with their sum. -/
theorem sumReduce_spec (dim : Nat) (v : Nat → Int) (bufS : Nat → Int) (hdim : 0 < dim)
    (hv : ∀ l, l < dim → 0 ≤ v l) (hS : ∑ l ∈ Finset.range dim, v l < 16777216) :
    (sumReduce dim v bufS).term 0 = ∑ l ∈ Finset.range dim, v l := by
  have hone : ∀ l, l < dim → v l ≤ ∑ l ∈ Finset.range dim, v l := by
    intro l hl
    exact Finset.single_le_sum (f := fun l => v l)
      (fun i hi => hv i (Finset.mem_range.1 hi)) (Finset.mem_range.2 hl)
  have hinit : ∀ l, l < dim →
      forWorkers dim (fun lid b => Function.update b lid (toFloat (v lid))) bufS l = v l := by
    intro l hl
    have h := forWorkers_write dim (fun _ => True) (fun lid => toFloat (v lid)) bufS l
    simp only [if_true, and_true] at h
    have h0 := hv l hl
    have h1 := hone l hl
    rw [h, if_pos hl, toFloat_exact _ (by omega) (by omega)]
  unfold sumReduce
  apply sumLoop_spec dim _ hS dim dim _ (Nat.le_refl _) hdim (Nat.le_refl _)
  · intro l hl
    exact (hinit l hl).symm
  · intro l hl
    show 0 ≤ forWorkers dim (fun lid b => Function.update b lid (toFloat (v lid))) bufS l
    rw [hinit l hl]
    exact hv l hl
  · apply Finset.sum_congr rfl
    intro l hl
    exact hinit l (Finset.mem_range.1 hl)

/-- Below the rounding threshold the length sum is right: for a non-negative distance and a
tour shorter than `2 ^ 24`, worker 0 ends the sum reduction with the cyclic tour length, for
every team size, and that value is merged into `best[0]`. -/
theorem converged_exact {α : Type} (d : α → α → Int) (cities dim : Nat) (p : Nat → α)
    (bufS : Nat → Int) (best : Int) (hdim : 1 ≤ dim) (hnonneg : ∀ a b, 0 ≤ d a b)
    (hlen : tourLength d cities p < 16777216) :
    (converged d cities dim p bufS best).1 = tourLength d cities p ∧
      (converged d cities dim p bufS best).2 = mergeBest best (tourLength d cities p) := by
  have hpt : ∀ l, l < dim → partialTerm d cities dim p l
      = strideLoop (fun i => decide (i < cities)) dim
        (fun i (t : Int) => t + d (p i) (p (i + 1))) cities l 0 :=
    fun l hl => partialTerm_exact d cities dim p hnonneg hdim l hl (by omega)
  have hsum : ∑ l ∈ Finset.range dim, partialTerm d cities dim p l = tourLength d cities p := by
    rw [← sum_exactTerm d cities dim p hdim]
    exact Finset.sum_congr rfl (fun l hl => hpt l (Finset.mem_range.1 hl))
  have h : (sumReduce dim (partialTerm d cities dim p) bufS).term 0 = tourLength d cities p := by
    rw [sumReduce_spec dim _ bufS hdim
      (fun l hl => by rw [hpt l hl]; exact exactTerm_nonneg d cities dim p hnonneg l)
      (by rw [hsum]; exact hlen), hsum]
  simp only [converged, h, and_self]

/-! ### A converged tour whose length the sum reduction misses -/

theorem sumTour_line (k : Nat) (h2 : 2 ≤ k) (h100 : k ≤ 100) :
    sumTour k = (0, 100 - (k : Int)) := by
  unfold sumTour
  rw [if_neg (by omega), if_neg (by omega)]
  split
  · rfl
  · have : k = 100 := by omega
    subst this
    rfl

theorem sumTour_converged : codeMinchange farDist 100 sumTour = 0 := by
  have hhead : ∀ i, i < 2 → ∀ j, j < 100 → i + 2 ≤ j → 0 ≤ codeDelta farDist sumTour i j := by
    decide!
  refine IsMinchange_unique (codeDelta farDist sumTour) 100 _ _
    (code_isMinchange farDist 100 sumTour) ⟨le_refl _, ?_, Or.inl rfl⟩
  intro i j hij hj
  by_cases hi : i < 2
  · exact hhead i hi j (by omega) hij
  · have := (far_tail sumTour 2 sumTour_line i j (by omega) hij hj).1
    omega

theorem sumTour_sum :
    tourLength farDist 100 sumTour = 33554534 ∧
      converged farDist 100 98 sumTour (fun _ => 0) INT_MAX = (33554536, 33554536) := by
  decide!

/-- C12 (failing input): the 100-city tour `sumTour` is converged (a pass of the team of 98
workers reports `minchange = 0`), its cyclic length is 33554534, and the `term` of worker 0
after the sum tree reduction, which is merged into `best[0]`, is 33554536: the partial
length `16777219` of worker 0 is stored into the float buffer `buf_s` as `16777220`, and the
float additions of the reduction round again. -/
theorem sumTour_term_differs :
    (pass farDist 100 128 98 (0, 0) 0 sumTeam).2 = 0 ∧
      tourLength farDist 100 sumTeam.p = 33554534 ∧
      (converged farDist 100 98 sumTeam.p (fun _ => 0) INT_MAX).1 = 33554536 ∧
      (converged farDist 100 98 sumTeam.p (fun _ => 0) INT_MAX).2 = 33554536 := by
  refine ⟨?_, sumTour_sum.1, ?_, ?_⟩
  · rw [pass_minchange_code farDist 100 128 98 (0, 0) 0 sumTeam (by decide) (by decide)]
    show toFloat (codeMinchange farDist 100 sumTour) = 0
    rw [sumTour_converged]
    decide
  · show (converged farDist 100 98 sumTour (fun _ => 0) INT_MAX).1 = 33554536
    rw [sumTour_sum.2]
  · show (converged farDist 100 98 sumTour (fun _ => 0) INT_MAX).2 = 33554536
    rw [sumTour_sum.2]

set_option maxRecDepth 100000 in
/-- The tours `farTour` and `sumTour` are what restart 0 starts its local search on, for the
input files `farCities` and `sumCities` and the team of 98 workers. -/
theorem restart0_tours :
    (∀ k, k < 101 → initTour 100 98 0 farCities (fun _ => (0, 0)) k = farTour k) ∧
      ∀ k, k < 101 → initTour 100 98 0 sumCities (fun _ => (0, 0)) k = sumTour k := by
  decide!

theorem perfOf_spec :
    ∀ t, t < 257 → (1 ≤ t → t ≤ 128 → perfOf t = 16 * t) ∧ (128 < t → perfOf t ≤ 2048) := by
  decide

theorem threadLoop_spec (max : Nat) (hmax : max ≤ 256) :
    ∀ (fuel t : Nat) (s : Nat × Nat), 1 ≤ t → t ≤ max + 1 → max + 1 ≤ t + fuel →
      ((t = 1 ∧ s = (0, 4)) ∨ (2 ≤ t ∧ s = (16 * min (t - 1) 128, min (t - 1) 128))) →
      (max = 0 ∧ threadLoop max fuel t s = (0, 4)) ∨
        (1 ≤ max ∧ threadLoop max fuel t s = (16 * min max 128, min max 128)) := by
  intro fuel
  induction fuel with
  | zero =>
    intro t s h1 h2 h3 hs
    have ht : t = max + 1 := by omega
    subst ht
    simp only [threadLoop]
    rcases hs with ⟨h, e⟩ | ⟨h, e⟩
    · exact Or.inl ⟨by omega, e⟩
    · exact Or.inr ⟨by omega, by simpa using e⟩
  | succ n ih =>
    intro t s h1 h2 h3 hs
    simp only [threadLoop]
    by_cases hle : t ≤ max
    · rw [if_pos hle]
      apply ih (t + 1) _ (by omega) (by omega) (by omega)
      right
      refine ⟨by omega, ?_⟩
      obtain ⟨hsmall, hbig⟩ := perfOf_spec t (by omega)
      have es : s.1 = if t = 1 then 0 else 16 * min (t - 1) 128 := by
        rcases hs with ⟨h, e⟩ | ⟨h, e⟩
        · rw [e, if_pos h]
        · rw [e, if_neg (by omega)]
      by_cases h128 : t ≤ 128
      · have hp := hsmall h1 h128
        have hgt : perfOf t > s.1 := by
          rw [es, hp]
          split <;> omega
        rw [if_pos hgt, hp]
        have e1 : min (t + 1 - 1) 128 = t := by omega
        rw [e1]
      · have hp := hbig (by omega)
        have hs2 : s = (16 * min (t - 1) 128, min (t - 1) 128) := by
          rcases hs with ⟨h, _⟩ | ⟨_, e⟩
          · omega
          · exact e
        have e0 : min (t - 1) 128 = 128 := by omega
        have e1 : min (t + 1 - 1) 128 = 128 := by omega
        have hng : ¬ perfOf t > s.1 := by
          rw [hs2, e0]
          show ¬ perfOf t > 16 * 128
          omega
        rw [if_neg hng, hs2, e0, e1]
    · rw [if_neg hle]
      have ht : t = max + 1 := by omega
      subst ht
      rcases hs with ⟨h, e⟩ | ⟨h, e⟩
      · exact Or.inl ⟨by omega, e⟩
      · exact Or.inr ⟨by omega, by simpa using e⟩

theorem best_thread_count_spec (cities : Nat) (h : 3 ≤ cities) :
    best_thread_count cities = min (cities - 2) 128 := by
  have hs := threadLoop_spec (if cities - 2 > 256 then 256 else cities - 2)
    (by split <;> omega) (if cities - 2 > 256 then 256 else cities - 2) 1 (0, 4)
    (Nat.le_refl _) (by omega) (by omega) (Or.inl ⟨rfl, rfl⟩)
  have e : best_thread_count cities
      = (threadLoop (if cities - 2 > 256 then 256 else cities - 2)
          (if cities - 2 > 256 then 256 else cities - 2) 1 (0, 4)).2 := rfl
  rcases hs with ⟨h0, _⟩ | ⟨_, h1⟩
  · split at h0 <;> omega
  · rw [e, h1]
    show min (if cities - 2 > 256 then 256 else cities - 2) 128 = min (cities - 2) 128
    split <;> omega

/-- C13: for every `cities >= 3`, `best_thread_count(cities) = min(cities - 2, 128)`, although
the loop tries up to 256 threads.  For every accepted input, `cities >= 100`, the thread
limit therefore lies in `[1, 128]`, and in a team of `dim` workers within that limit every
worker id `lid < dim` is below 128, inside the reduction buffer `buf_s`. -/
theorem best_thread_count_eq (cities : Nat) (h : 3 ≤ cities) :
    best_thread_count cities = min (cities - 2) 128 ∧
      (100 ≤ cities →
        1 ≤ best_thread_count cities ∧ best_thread_count cities ≤ 128 ∧
          ∀ dim lid, dim ≤ best_thread_count cities → lid < dim → lid < 128) := by
  have e := best_thread_count_spec cities h
  refine ⟨e, fun h100 => ?_⟩
  rw [e]
  exact ⟨by omega, by omega, fun dim lid h1 h2 => by omega⟩

/-- C13 (witness): the data set of 493 cities. -/
theorem best_thread_count_eq_witness :
    3 ≤ 493 ∧
      (best_thread_count 493 = min (493 - 2) 128 ∧
        (100 ≤ 493 →
          1 ≤ best_thread_count 493 ∧ best_thread_count 493 ≤ 128 ∧
            ∀ dim lid, dim ≤ best_thread_count 493 → lid < dim → lid < 128)) :=
  ⟨by decide, best_thread_count_eq 493 (by decide)⟩

theorem sumLoop_fuel (dim extra : Nat) :
    ∀ (fuel j : Nat) (r : SumRed), 0 < j → j ≤ fuel →
      sumLoop dim (fuel + extra) j r = sumLoop dim fuel j r := by
  intro fuel
  induction fuel with
  | zero => intro j r h0 h; omega
  | succ m ih =>
    intro j r h0 h
    rw [Nat.add_right_comm]
    simp only [sumLoop]
    split
    · exact ih _ _ (by omega) (by omega)
    · rfl

theorem blocksLoop_fuel (thr extra : Nat) :
    ∀ (fuel blocks : Nat), blocks ≤ fuel →
      blocksLoop thr (fuel + extra) blocks = blocksLoop thr fuel blocks := by
  intro fuel
  induction fuel with
  | zero =>
    intro blocks h
    have hb : blocks = 0 := by omega
    subst hb
    cases extra with
    | zero => rfl
    | succ e => simp [blocksLoop]
  | succ m ih =>
    intro blocks h
    rw [Nat.add_right_comm]
    simp only [blocksLoop]
    split
    · apply ih
      have : 0 < blocks := by
        rcases Nat.eq_zero_or_pos blocks with h0 | h0
        · subst h0; simp at *
        · exact h0
      omega
    · rfl

end TSP
